/-
  Verification of the blockbuster concurrent-container library.

  Shallow embedding of the three data structures in
  src/include/blockbuster/{spsc/queue.hpp, mpmc/queue.hpp, mpmc/hashmap.hpp},
  under their single-threaded (sequential) semantics: every atomic
  compare-and-swap whose expected value matches succeeds, and loads observe
  the unique current state.  Retry loops that would spin forever in a
  single-threaded execution (the MPMC queue's reload branch, HashMap::insert's
  grow-and-retry loop) are modelled with an Option result / an explicit fuel
  parameter, where `none` marks divergence.

  Machine integers: cursors and sizes are modelled as unbounded naturals.
  The only place where `size_t` wrap-around is observable in a sequential
  run is the SPSC queue's `size()` subtraction, modelled by `usub64`.
-/
import Mathlib

namespace Blockbuster

/-- 64-bit unsigned subtraction `a - b` on `size_t` values: the result is
`a - b` modulo `2 ^ 64`. -/
def usub64 (a b : Nat) : Nat := (a + (2 ^ 64 - b % 2 ^ 64)) % 2 ^ 64

/-- The source's index wrapping: `index & (capacity - 1)`.  Equivalent to
`index % capacity` when the capacity is a power of two (which both queues
enforce by `static_assert` and the hash map by construction). -/
def wrap (cap index : Nat) : Nat := index &&& (cap - 1)

namespace Spsc

/-- State of `Blockbuster::Spsc::Queue<T, Capacity>`: the backing array
`m_buffer` (length `Capacity`), and the `m_head` / `m_tail` cursors, which the
source stores already wrapped into `[0, Capacity)`. -/
structure Queue (α : Type) where
  m_buffer : List α
  m_head : Nat
  m_tail : Nat
deriving DecidableEq

/-- A default-constructed queue: default-initialized buffer, cursors 0. -/
def Queue.init (α : Type) [Inhabited α] (cap : Nat) : Queue α :=
  ⟨List.replicate cap default, 0, 0⟩

/-- `Queue::enqueue`: fails iff advancing the tail would collide with the
head; otherwise writes the item at the current tail and publishes the new
tail. -/
def Queue.enqueue (cap : Nat) (q : Queue α) (item : α) : Bool × Queue α :=
  let currTail := q.m_tail
  let nextTail := wrap cap (currTail + 1)
  if nextTail = q.m_head then (false, q)
  else (true, { q with m_buffer := q.m_buffer.set currTail item, m_tail := nextTail })

/-- `Queue::dequeue`: empty iff the cursors are equal; otherwise reads the
item at the head and advances the head. -/
def Queue.dequeue [Inhabited α] (cap : Nat) (q : Queue α) : Option α × Queue α :=
  let currHead := q.m_head
  if currHead = q.m_tail then (none, q)
  else (some (q.m_buffer.getD currHead default), { q with m_head := wrap cap (currHead + 1) })

/-- `Queue::empty`: head equals tail. -/
def Queue.empty (q : Queue α) : Bool := q.m_head = q.m_tail

/-- `Queue::full`: advancing the tail would collide with the head. -/
def Queue.full (cap : Nat) (q : Queue α) : Bool := wrap cap (q.m_tail + 1) = q.m_head

/-- `Queue::capacity`: the compile-time constant `Capacity`. -/
def Queue.capacity (cap : Nat) (_q : Queue α) : Nat := cap

/-- `Queue::size`: `wrap(m_tail - m_head)` with `size_t` subtraction. -/
def Queue.size (cap : Nat) (q : Queue α) : Nat := wrap cap (usub64 q.m_tail q.m_head)

/-- Run a sequence of enqueues, collecting each call's boolean result. -/
def Queue.enqueueList (cap : Nat) (q : Queue α) : List α → List Bool × Queue α
  | [] => ([], q)
  | x :: xs =>
    let r := Queue.enqueue cap q x
    let rs := Queue.enqueueList cap r.2 xs
    (r.1 :: rs.1, rs.2)

/-- Run `n` dequeues, collecting each call's optional result. -/
def Queue.dequeueN [Inhabited α] (cap : Nat) (q : Queue α) : Nat → List (Option α) × Queue α
  | 0 => ([], q)
  | n + 1 =>
    let r := Queue.dequeue cap q
    let rs := Queue.dequeueN cap r.2 n
    (r.1 :: rs.1, rs.2)

/-- One public operation of the SPSC queue, used single-threaded. -/
inductive Step (cap : Nat) [Inhabited α] : Queue α → Queue α → Prop where
  | enqueue (q : Queue α) (item : α) : Step cap q (Queue.enqueue cap q item).2
  | dequeue (q : Queue α) : Step cap q (Queue.dequeue cap q).2

/-- States reachable from a fresh queue by public operations. -/
def Reachable (α : Type) [Inhabited α] (cap : Nat) (q : Queue α) : Prop :=
  Relation.ReflTransGen (Step cap) (Queue.init α cap) q

end Spsc

namespace Mpmc

/-- A slot of `Blockbuster::Mpmc::Queue`: a `sequence` counter plus payload. -/
structure Queue.Cell (α : Type) where
  sequence : Nat
  data : α
deriving DecidableEq

/-- State of `Blockbuster::Mpmc::Queue<T, Capacity>`: the slot array and the
two monotonically increasing (unmasked) cursors. -/
structure Queue (α : Type) where
  m_buffer : List (Queue.Cell α)
  m_enqueuePos : Nat
  m_dequeuePos : Nat
deriving DecidableEq

/-- The constructor: slot `i` has `sequence = i`, payload default-initialized;
both cursors 0. -/
def Queue.init (α : Type) [Inhabited α] (cap : Nat) : Queue α :=
  ⟨(List.range cap).map (fun i => ⟨i, default⟩), 0, 0⟩

/-- `Queue::enqueue`, single-threaded: the candidate slot is inspected once.
`dif = 0`: the CAS on `m_enqueuePos` succeeds (no contention), the payload is
written and `sequence = pos + 1` published.  `dif < 0`: the queue is full for
that slot, return false with no mutation.  `dif > 0`: the source reloads
`m_enqueuePos`, which single-threaded yields the same value again, so the
loop never terminates; modelled as `none`. -/
def Queue.enqueue [Inhabited α] (cap : Nat) (q : Queue α) (item : α) :
    Option (Bool × Queue α) :=
  let pos := q.m_enqueuePos
  let cell := q.m_buffer.getD (wrap cap pos) ⟨0, default⟩
  let seq := cell.sequence
  let dif : Int := (seq : Int) - (pos : Int)
  if dif = 0 then
    some (true, { q with
      m_buffer := q.m_buffer.set (wrap cap pos) ⟨pos + 1, item⟩,
      m_enqueuePos := pos + 1 })
  else if dif < 0 then
    some (false, q)
  else
    none

/-- `Queue::dequeue`, single-threaded, symmetric to `enqueue`: a ready slot
has `sequence = pos + 1`; after reading the payload the slot is republished
with `sequence = pos + capacity`. -/
def Queue.dequeue [Inhabited α] (cap : Nat) (q : Queue α) :
    Option (Option α × Queue α) :=
  let pos := q.m_dequeuePos
  let cell := q.m_buffer.getD (wrap cap pos) ⟨0, default⟩
  let seq := cell.sequence
  let dif : Int := (seq : Int) - ((pos : Int) + 1)
  if dif = 0 then
    some (some cell.data, { q with
      m_buffer := q.m_buffer.set (wrap cap pos) ⟨pos + cap, cell.data⟩,
      m_dequeuePos := pos + 1 })
  else if dif < 0 then
    some (none, q)
  else
    none

/-- `Queue::empty`: `enqueuePos - dequeuePos <= 0` on unsigned values, i.e.
the cursors are equal.  In every single-threaded state `dequeuePos` never
exceeds `enqueuePos`. -/
def Queue.empty (q : Queue α) : Bool := q.m_enqueuePos - q.m_dequeuePos = 0

/-- `Queue::full`: `enqueuePos - dequeuePos >= capacity`. -/
def Queue.full (cap : Nat) (q : Queue α) : Bool :=
  cap ≤ q.m_enqueuePos - q.m_dequeuePos

/-- `Queue::capacity`: the compile-time constant `Capacity`. -/
def Queue.capacity (cap : Nat) (_q : Queue α) : Nat := cap

/-- `Queue::size`: `enqueuePos - dequeuePos`. -/
def Queue.size (q : Queue α) : Nat := q.m_enqueuePos - q.m_dequeuePos

/-- Run a sequence of enqueues; `none` if any call diverges. -/
def Queue.enqueueList [Inhabited α] (cap : Nat) (q : Queue α) :
    List α → Option (List Bool × Queue α)
  | [] => some ([], q)
  | x :: xs =>
    match Queue.enqueue cap q x with
    | none => none
    | some (b, q') =>
      match Queue.enqueueList cap q' xs with
      | none => none
      | some (bs, q'') => some (b :: bs, q'')

/-- Run `n` dequeues; `none` if any call diverges. -/
def Queue.dequeueN [Inhabited α] (cap : Nat) (q : Queue α) :
    Nat → Option (List (Option α) × Queue α)
  | 0 => some ([], q)
  | n + 1 =>
    match Queue.dequeue cap q with
    | none => none
    | some (o, q') =>
      match Queue.dequeueN cap q' n with
      | none => none
      | some (os, q'') => some (o :: os, q'')

/-- One terminating public operation of the MPMC queue, used
single-threaded. -/
inductive Step [Inhabited α] (cap : Nat) : Queue α → Queue α → Prop where
  | enqueue (q q' : Queue α) (item : α) (b : Bool) :
      Queue.enqueue cap q item = some (b, q') → Step cap q q'
  | dequeue (q q' : Queue α) (o : Option α) :
      Queue.dequeue cap q = some (o, q') → Step cap q q'

/-- States reachable from a fresh queue by public operations. -/
def Reachable (α : Type) [Inhabited α] (cap : Nat) (q : Queue α) : Prop :=
  Relation.ReflTransGen (Step cap) (Queue.init α cap) q

/-- The unique logical position `p` with `D ≤ p < D + cap` and
`p % cap = j`: the position slot `j` is responsible for when the window of
live positions starts at `D`. -/
def posOf (cap D j : Nat) : Nat := D + ((j + cap - D % cap) % cap)

/-- The per-slot sequence invariant of the spec: with `p = posOf cap D j`,
a still-pending position (`p < E`) has `sequence = p + 1` (ready-for-read at
`p`), and otherwise `sequence = p` (ready-for-write at `p`; when `p` is
`pos + cap` for a consumed position `pos` this is the next-reusable case). -/
def slotOk (cap E D j seq : Nat) : Prop :=
  (posOf cap D j < E → seq = posOf cap D j + 1) ∧
  (E ≤ posOf cap D j → seq = posOf cap D j)

/-- The sequence-number invariant of the MPMC queue in single-threaded
states: the cursors are ordered and at most `cap` apart, and every slot's
sequence encodes its state relative to its logical position. -/
def Inv [Inhabited α] (cap : Nat) (q : Queue α) : Prop :=
  q.m_buffer.length = cap ∧
  q.m_dequeuePos ≤ q.m_enqueuePos ∧
  q.m_enqueuePos ≤ q.m_dequeuePos + cap ∧
  ∀ j, j < cap →
    slotOk cap q.m_enqueuePos q.m_dequeuePos j
      (q.m_buffer.getD j ⟨0, default⟩).sequence

/-- `HashMap::CellState`: the per-cell concurrency-control state. -/
inductive CellState where
  | empty
  | writing
  | full
  | deleted
deriving DecidableEq

/-- `HashMap::Cell`: state, key and value. -/
structure HashMap.Cell (κ ν : Type) where
  state : CellState
  key : κ
  value : ν
deriving DecidableEq

/-- A default-constructed cell: `Empty` state, default key and value. -/
def HashMap.dcell [Inhabited κ] [Inhabited ν] : HashMap.Cell κ ν :=
  ⟨.empty, default, default⟩

/-- `HashMap::Table`: capacity, cell array, size counter. -/
structure HashMap.Table (κ ν : Type) where
  m_capacity : Nat
  m_buffer : List (HashMap.Cell κ ν)
  m_size : Nat
deriving DecidableEq

/-- `Table::Table(capacity)`: `capacity` default-constructed cells. -/
def HashMap.Table.init (κ ν : Type) [Inhabited κ] [Inhabited ν] (capacity : Nat) :
    HashMap.Table κ ν :=
  ⟨capacity, List.replicate capacity HashMap.dcell, 0⟩

/-- `Table::hash`: the key's hash (`hashFn` models `std::hash<Key>`) masked
into buffer bounds. -/
def HashMap.Table.hash (hashFn : κ → Nat) (t : HashMap.Table κ ν) (key : κ) : Nat :=
  wrap t.m_capacity (hashFn key)

/-- The probe loop of `Table::insert` over the remaining probe offsets
(`List.range m_capacity` when called).  At each cell: CAS `Empty → Writing`
succeeds single-threaded iff the cell is `Empty`, after which key/value are
written, `Full` published and the size incremented; a `Full` cell holding the
same key fails the insert; anything else continues probing. -/
def HashMap.Table.insertLoop [DecidableEq κ] [Inhabited κ] [Inhabited ν]
    (t : HashMap.Table κ ν) (key : κ) (value : ν) (index : Nat) :
    List Nat → Bool × HashMap.Table κ ν
  | [] => (false, t)
  | i :: rest =>
    let j := wrap t.m_capacity (index + i)
    let cell := t.m_buffer.getD j HashMap.dcell
    match cell.state with
    | .empty =>
      (true, { t with
        m_buffer := t.m_buffer.set j ⟨.full, key, value⟩,
        m_size := t.m_size + 1 })
    | .full =>
      if cell.key = key then (false, t)
      else HashMap.Table.insertLoop t key value index rest
    | _ => HashMap.Table.insertLoop t key value index rest

/-- `Table::insert`: probe linearly from the hashed index over the whole
table. -/
def HashMap.Table.insert [DecidableEq κ] [Inhabited κ] [Inhabited ν]
    (hashFn : κ → Nat) (t : HashMap.Table κ ν) (key : κ) (value : ν) :
    Bool × HashMap.Table κ ν :=
  HashMap.Table.insertLoop t key value (HashMap.Table.hash hashFn t key)
    (List.range t.m_capacity)

/-- The probe loop of `Table::get`: a `Full` cell with a matching key yields
its value; an `Empty` cell terminates the search; `Writing` and `Deleted`
cells (and `Full` cells with other keys) are skipped. -/
def HashMap.Table.getLoop [DecidableEq κ] [Inhabited κ] [Inhabited ν]
    (t : HashMap.Table κ ν) (key : κ) (index : Nat) : List Nat → Option ν
  | [] => none
  | i :: rest =>
    let cell := t.m_buffer.getD (wrap t.m_capacity (index + i)) HashMap.dcell
    if cell.state = .full then
      if cell.key = key then some cell.value
      else HashMap.Table.getLoop t key index rest
    else if cell.state = .empty then none
    else HashMap.Table.getLoop t key index rest

/-- `Table::get`. -/
def HashMap.Table.get [DecidableEq κ] [Inhabited κ] [Inhabited ν]
    (hashFn : κ → Nat) (t : HashMap.Table κ ν) (key : κ) : Option ν :=
  HashMap.Table.getLoop t key (HashMap.Table.hash hashFn t key)
    (List.range t.m_capacity)

/-- The probe loop of `Table::remove`: a `Full` cell with a matching key is
CASed `Full → Deleted` (single-threaded the CAS succeeds) and the size
decremented; otherwise an `Empty` cell terminates the search with failure. -/
def HashMap.Table.removeLoop [DecidableEq κ] [Inhabited κ] [Inhabited ν]
    (t : HashMap.Table κ ν) (key : κ) (index : Nat) :
    List Nat → Bool × HashMap.Table κ ν
  | [] => (false, t)
  | i :: rest =>
    let j := wrap t.m_capacity (index + i)
    let cell := t.m_buffer.getD j HashMap.dcell
    if cell.state = .full ∧ cell.key = key then
      (true, { t with
        m_buffer := t.m_buffer.set j { cell with state := .deleted },
        m_size := t.m_size - 1 })
    else if cell.state = .empty then (false, t)
    else HashMap.Table.removeLoop t key index rest

/-- `Table::remove`. -/
def HashMap.Table.remove [DecidableEq κ] [Inhabited κ] [Inhabited ν]
    (hashFn : κ → Nat) (t : HashMap.Table κ ν) (key : κ) :
    Bool × HashMap.Table κ ν :=
  HashMap.Table.removeLoop t key (HashMap.Table.hash hashFn t key)
    (List.range t.m_capacity)

/-- State of `Blockbuster::Mpmc::HashMap`: the current table. -/
structure HashMap (κ ν : Type) where
  m_table : HashMap.Table κ ν
deriving DecidableEq

/-- `HashMap::HashMap()`: a fresh table of the initial capacity. -/
def HashMap.init (κ ν : Type) [Inhabited κ] [Inhabited ν]
    (initialCapacity : Nat) : HashMap κ ν :=
  ⟨HashMap.Table.init κ ν initialCapacity⟩

/-- `HashMap::resize`: build a table of double capacity and re-insert every
`Full` cell of the old table (in buffer order, ignoring each insert's
result), then repoint the map at the new table. -/
def HashMap.resize [DecidableEq κ] [Inhabited κ] [Inhabited ν]
    (hashFn : κ → Nat) (m : HashMap κ ν) : HashMap κ ν :=
  let oldTable := m.m_table
  let newTable :=
    oldTable.m_buffer.foldl
      (fun nt cell =>
        if cell.state = .full then (HashMap.Table.insert hashFn nt cell.key cell.value).2
        else nt)
      (HashMap.Table.init κ ν (oldTable.m_capacity * 2))
  ⟨newTable⟩

/-- `HashMap::insert`: retry loop around `Table::insert`; after a failed
attempt, resize if the table's occupancy exceeds half its capacity, then
retry.  The loop has no other exit: modelled with a fuel parameter, `none`
meaning the loop has not returned within `fuel` iterations (it never
returns at all when every iteration fails without changing the state). -/
def HashMap.insertFuel [DecidableEq κ] [Inhabited κ] [Inhabited ν]
    (hashFn : κ → Nat) (fuel : Nat) (m : HashMap κ ν) (key : κ) (value : ν) :
    Option (Bool × HashMap κ ν) :=
  match fuel with
  | 0 => none
  | fuel + 1 =>
    let table := m.m_table
    let r := HashMap.Table.insert hashFn table key value
    if r.1 then some (true, ⟨r.2⟩)
    else
      let m' :=
        if table.m_capacity / 2 < table.m_size then HashMap.resize hashFn m else m
      HashMap.insertFuel hashFn fuel m' key value

/-- `HashMap::get`: delegate to the current table. -/
def HashMap.get [DecidableEq κ] [Inhabited κ] [Inhabited ν]
    (hashFn : κ → Nat) (m : HashMap κ ν) (key : κ) : Option ν :=
  HashMap.Table.get hashFn m.m_table key

/-- `HashMap::remove`: delegate to the current table. -/
def HashMap.remove [DecidableEq κ] [Inhabited κ] [Inhabited ν]
    (hashFn : κ → Nat) (m : HashMap κ ν) (key : κ) : Bool × HashMap κ ν :=
  let r := HashMap.Table.remove hashFn m.m_table key
  (r.1, ⟨r.2⟩)

/-- `HashMap::capacity`: the current table's capacity. -/
def HashMap.capacity (m : HashMap κ ν) : Nat := m.m_table.m_capacity

/-- `HashMap::size`: the current table's size counter. -/
def HashMap.size (m : HashMap κ ν) : Nat := m.m_table.m_size

/-- One terminating public mutating operation of the hash map, used
single-threaded. -/
inductive HashMap.Step [DecidableEq κ] [Inhabited κ] [Inhabited ν]
    (hashFn : κ → Nat) : HashMap κ ν → HashMap κ ν → Prop where
  | insert (fuel : Nat) (m m' : HashMap κ ν) (key : κ) (value : ν) (b : Bool) :
      HashMap.insertFuel hashFn fuel m key value = some (b, m') →
      HashMap.Step hashFn m m'
  | remove (m : HashMap κ ν) (key : κ) :
      HashMap.Step hashFn m (HashMap.remove hashFn m key).2

/-- Map states reachable from a fresh map by public operations. -/
def HashMap.Reachable [DecidableEq κ] [Inhabited κ] [Inhabited ν]
    (hashFn : κ → Nat) (initialCapacity : Nat) (m : HashMap κ ν) : Prop :=
  Relation.ReflTransGen (HashMap.Step hashFn)
    (HashMap.init κ ν initialCapacity) m

/-- The cell of table `t` at buffer index `j`. -/
def HashMap.cellAt [Inhabited κ] [Inhabited ν] (t : HashMap.Table κ ν)
    (j : Nat) : HashMap.Cell κ ν :=
  t.m_buffer.getD j HashMap.dcell

/-- The cell probed at distance `d` from start index `index`. -/
def HashMap.probeAt [Inhabited κ] [Inhabited ν] (t : HashMap.Table κ ν)
    (index d : Nat) : HashMap.Cell κ ν :=
  HashMap.cellAt t (wrap t.m_capacity (index + d))

/-- The probe distance from start index `index` to buffer index `j` (both in
`[0, cap)`): the number of linear-probing steps after which index `j` is
visited. -/
def probeDist (cap index j : Nat) : Nat := (j + cap - index) % cap

/-- Number of `Full` cells of a table. -/
def HashMap.countFull (t : HashMap.Table κ ν) : Nat :=
  t.m_buffer.countP (fun c => c.state = .full)

/-- Well-formedness of a table in single-threaded reachable states:
the capacity is a power of two matching the buffer length; the size counter
counts the `Full` cells; no cell is stuck in `Writing`; a key occupies at
most one `Full` cell; and no `Full` cell has an `Empty` cell earlier in its
key's probe sequence (the probe-chain invariant that makes `get`'s
early-exit on `Empty` sound). -/
def HashMap.TableWf [DecidableEq κ] [Inhabited κ] [Inhabited ν]
    (hashFn : κ → Nat) (t : HashMap.Table κ ν) : Prop :=
  (∃ k, t.m_capacity = 2 ^ k) ∧
  t.m_buffer.length = t.m_capacity ∧
  t.m_size = HashMap.countFull t ∧
  (∀ j, j < t.m_capacity → (HashMap.cellAt t j).state ≠ .writing) ∧
  (∀ j₁, j₁ < t.m_capacity → ∀ j₂, j₂ < t.m_capacity →
    (HashMap.cellAt t j₁).state = .full → (HashMap.cellAt t j₂).state = .full →
    (HashMap.cellAt t j₁).key = (HashMap.cellAt t j₂).key → j₁ = j₂) ∧
  (∀ j, j < t.m_capacity → (HashMap.cellAt t j).state = .full →
    ∀ d, d < probeDist t.m_capacity
        (HashMap.Table.hash hashFn t (HashMap.cellAt t j).key) j →
      (HashMap.probeAt t
        (HashMap.Table.hash hashFn t (HashMap.cellAt t j).key) d).state ≠ .empty)

end Mpmc

/-! ## Arithmetic and list utilities -/

theorem wrap_eq_mod (k i : Nat) : wrap (2 ^ k) i = i % 2 ^ k := by
  apply Nat.eq_of_testBit_eq
  intro b
  rw [show wrap (2 ^ k) i = i &&& (2 ^ k - 1) from rfl, Nat.testBit_and,
    Nat.testBit_two_pow_sub_one, Nat.testBit_mod_two_pow]
  exact Bool.and_comm _ _

theorem wrap_le (cap i : Nat) : wrap cap i ≤ cap - 1 :=
  Nat.and_le_right

theorem usub64_of_le {a b : Nat} (h : b ≤ a) : usub64 a b = (a - b) % 2 ^ 64 := by
  unfold usub64
  omega

theorem getD_set_self {α : Type} (l : List α) {i : Nat} (h : i < l.length)
    (a d : α) : (l.set i a).getD i d = a := by
  simp [List.getD_eq_getElem?_getD, List.getElem?_set_self, h]

theorem getD_set_ne {α : Type} (l : List α) {i j : Nat} (h : i ≠ j)
    (a d : α) : (l.set i a).getD j d = l.getD j d := by
  simp [List.getD_eq_getElem?_getD, List.getElem?_set_ne h]

theorem getD_append_left {α : Type} (l₁ l₂ : List α) {i : Nat}
    (h : i < l₁.length) (d : α) : (l₁ ++ l₂).getD i d = l₁.getD i d := by
  simp [List.getD_eq_getElem?_getD, List.getElem?_append_left h]

theorem getD_append_right {α : Type} (l₁ l₂ : List α) {i : Nat}
    (h : l₁.length ≤ i) (d : α) :
    (l₁ ++ l₂).getD i d = l₂.getD (i - l₁.length) d := by
  simp [List.getD_eq_getElem?_getD, List.getElem?_append_right h]

theorem getD_eq_default {α : Type} (l : List α) {i : Nat} (h : l.length ≤ i)
    (d : α) : l.getD i d = d := by
  simp [List.getD_eq_getElem?_getD, List.getElem?_eq_none h]

theorem getD_replicate {α : Type} {n i : Nat} (h : i < n) (x d : α) :
    (List.replicate n x).getD i d = x := by
  simp [List.getD_eq_getElem?_getD, List.getElem?_replicate, h]

theorem getD_range_map {β : Type} (f : Nat → β) {n i : Nat} (h : i < n) (d : β) :
    ((List.range n).map f).getD i d = f i := by
  simp [List.getD_eq_getElem?_getD, List.getElem?_map, List.getElem?_range h]

theorem countP_set_incr {α : Type} (p : α → Bool) (l : List α) (d : α) :
    ∀ j, j < l.length → p (l.getD j d) = false → ∀ a, p a = true →
    (l.set j a).countP p = l.countP p + 1 := by
  induction l with
  | nil => intro j h; simp at h
  | cons x xs ih =>
    intro j hj hold a ha
    cases j with
    | zero =>
      simp only [List.getD_cons_zero] at hold
      simp [List.countP_cons, hold, ha]
    | succ j =>
      simp only [List.getD_cons_succ] at hold
      simp only [List.length_cons, Nat.succ_lt_succ_iff] at hj
      simp [List.countP_cons, ih j hj hold a ha]
      omega

theorem countP_set_decr {α : Type} (p : α → Bool) (l : List α) (d : α) :
    ∀ j, j < l.length → p (l.getD j d) = true → ∀ a, p a = false →
    l.countP p = (l.set j a).countP p + 1 := by
  induction l with
  | nil => intro j h; simp at h
  | cons x xs ih =>
    intro j hj hold a ha
    cases j with
    | zero =>
      simp only [List.getD_cons_zero] at hold
      simp [List.countP_cons, hold, ha]
    | succ j =>
      simp only [List.getD_cons_succ] at hold
      simp only [List.length_cons, Nat.succ_lt_succ_iff] at hj
      simp [List.countP_cons, ih j hj hold a ha]
      omega

/-! ## SPSC queue: lemmas -/

namespace Spsc

variable {α : Type}

/-- Appending enqueue batches. -/
theorem Queue.enqueueList_append (cap : Nat) (q : Queue α) (xs ys : List α) :
    Queue.enqueueList cap q (xs ++ ys) =
      ((Queue.enqueueList cap q xs).1 ++
        (Queue.enqueueList cap (Queue.enqueueList cap q xs).2 ys).1,
       (Queue.enqueueList cap (Queue.enqueueList cap q xs).2 ys).2) := by
  induction xs generalizing q with
  | nil => simp [Queue.enqueueList]
  | cons x xs ih => simp [Queue.enqueueList, ih]

/-- State-shape lemma for a batch of successful enqueues: starting from a
queue holding `ys` at the front of the buffer with cursors `0` / `ys.length`,
enqueueing `xs` succeeds entirely and extends the written prefix. -/
theorem Queue.enqueueList_shape [Inhabited α] {ck : Nat} (cap : Nat) (hcap : cap = 2 ^ ck)
    (ys xs : List α) (h : ys.length + xs.length < cap) :
    Queue.enqueueList cap ⟨ys ++ List.replicate (cap - ys.length) default, 0, ys.length⟩ xs =
      (List.replicate xs.length true,
       ⟨(ys ++ xs) ++ List.replicate (cap - (ys.length + xs.length)) default, 0,
        ys.length + xs.length⟩) := by
  induction xs generalizing ys with
  | nil => simp [Queue.enqueueList]
  | cons x xs ih =>
    simp only [List.length_cons] at h ⊢
    have hlt : ys.length + 1 < cap := by omega
    have hwrap : wrap cap (ys.length + 1) = ys.length + 1 := by
      subst hcap
      rw [wrap_eq_mod]
      exact Nat.mod_eq_of_lt hlt
    have hne : wrap cap (ys.length + 1) ≠ 0 := by rw [hwrap]; omega
    have hset : (ys ++ List.replicate (cap - ys.length) default).set ys.length x =
        (ys ++ [x]) ++ List.replicate (cap - (ys.length + 1)) default := by
      rw [show cap - ys.length = (cap - (ys.length + 1)) + 1 by omega, List.replicate_succ]
      rw [show ys.length = ys.length + 0 from rfl, List.set_append_right _ _ (by omega)]
      simp
    have henq : Queue.enqueue cap
        ⟨ys ++ List.replicate (cap - ys.length) default, 0, ys.length⟩ x =
        (true, ⟨(ys ++ [x]) ++ List.replicate (cap - (ys.length + 1)) default, 0,
          ys.length + 1⟩) := by
      simp only [Queue.enqueue]
      rw [if_neg hne, hset, hwrap]
    have ih' := ih (ys ++ [x]) (by simp only [List.length_append,
      List.length_cons, List.length_nil]; omega)
    simp only [List.length_append, List.length_cons, List.length_nil] at ih'
    rw [show ys.length + (0 + 1) + xs.length = ys.length + 1 + xs.length by omega,
      show ys.length + (0 + 1) = ys.length + 1 by omega] at ih'
    simp only [Queue.enqueueList, henq]
    rw [ih']
    rw [show (ys ++ [x]) ++ xs = ys ++ (x :: xs) by simp,
      show ys.length + 1 + xs.length = ys.length + (xs.length + 1) by omega,
      List.replicate_succ]

/-- State-shape lemma for draining: with the buffer holding `ys ++ zs ++ pad`
and cursors at `ys.length` / `ys.length + zs.length`, dequeueing
`zs.length` items returns exactly `zs` in order. -/
theorem Queue.dequeueN_shape [Inhabited α] {ck : Nat} (cap : Nat) (hcap : cap = 2 ^ ck)
    (ys zs pad : List α) (hpad : 0 < pad.length)
    (hlen : ys.length + zs.length + pad.length = cap) :
    Queue.dequeueN cap ⟨ys ++ zs ++ pad, ys.length, ys.length + zs.length⟩ zs.length =
      (zs.map some,
       ⟨ys ++ zs ++ pad, ys.length + zs.length, ys.length + zs.length⟩) := by
  induction zs generalizing ys with
  | nil => simp [Queue.dequeueN]
  | cons z zs ih =>
    simp only [List.length_cons] at hlen ⊢
    have hne : ys.length ≠ ys.length + (zs.length + 1) := by omega
    have hget : (ys ++ (z :: zs) ++ pad).getD ys.length default = z := by
      rw [List.append_assoc, getD_append_right _ _ (Nat.le_refl _)]
      simp
    have hwrap : wrap cap (ys.length + 1) = ys.length + 1 := by
      subst hcap
      rw [wrap_eq_mod]
      apply Nat.mod_eq_of_lt
      omega
    have hdeq : Queue.dequeue cap
        ⟨ys ++ (z :: zs) ++ pad, ys.length, ys.length + (zs.length + 1)⟩ =
        (some z, ⟨ys ++ (z :: zs) ++ pad, ys.length + 1,
          ys.length + (zs.length + 1)⟩) := by
      simp only [Queue.dequeue]
      rw [if_neg hne, hget, hwrap]
    have ih' := ih (ys ++ [z]) (by simp only [List.length_append,
      List.length_cons, List.length_nil]; omega)
    simp only [List.length_append, List.length_cons, List.length_nil] at ih'
    rw [show ys.length + (0 + 1) + zs.length = ys.length + (zs.length + 1) by omega,
      show ys.length + (0 + 1) = ys.length + 1 by omega,
      show (ys ++ [z]) ++ zs ++ pad = ys ++ (z :: zs) ++ pad by simp] at ih'
    simp only [Queue.dequeueN, hdeq]
    rw [ih']
    simp

/-- Claim C3: for the SPSC queue of power-of-two capacity C used
single-threaded, a fresh queue accepts exactly C − 1 consecutive enqueues
(each returns true), after which full() returns true and the next enqueue
returns false with the queue unchanged (the item is not stored); the C − 1
items then dequeue in their enqueue order and empty() returns true
afterwards.  At C = 16 with values 0..14 this is the spec's concrete
scenario. -/
theorem C3_spsc_capacity_scenario [Inhabited α] (ck cap : Nat)
    (hcap : cap = 2 ^ ck) (xs : List α) (hxs : xs.length = cap - 1) (y : α) :
    ∃ q1 q2,
      Queue.enqueueList cap (Queue.init α cap) xs =
        (List.replicate (cap - 1) true, q1) ∧
      Queue.full cap q1 = true ∧
      Queue.enqueue cap q1 y = (false, q1) ∧
      Queue.dequeueN cap q1 (cap - 1) = (xs.map some, q2) ∧
      Queue.empty q2 = true := by
  have hcap0 : 0 < cap := by
    subst hcap; exact Nat.pos_pow_of_pos ck (by norm_num)
  have hlt : xs.length < cap := by omega
  have hshape : Queue.enqueueList cap (Queue.init α cap) xs =
      (List.replicate xs.length true,
       ⟨xs ++ List.replicate (cap - xs.length) default, 0, xs.length⟩) := by
    have h0 := Queue.enqueueList_shape cap hcap [] xs (by simpa using hlt)
    simpa [Queue.init] using h0
  have hpadlen : cap - xs.length = 1 := by omega
  have hwrap0 : wrap cap (xs.length + 1) = 0 := by
    subst hcap
    rw [wrap_eq_mod, show xs.length + 1 = 2 ^ ck by omega, Nat.mod_self]
  refine ⟨⟨xs ++ List.replicate (cap - xs.length) default, 0, xs.length⟩,
    ⟨xs ++ List.replicate (cap - xs.length) default, xs.length, xs.length⟩,
    ?_, ?_, ?_, ?_, ?_⟩
  · rw [hshape, hxs]
  · simp [Queue.full, hwrap0]
  · simp [Queue.enqueue, hwrap0]
  · have hdeq := Queue.dequeueN_shape cap hcap [] xs
      (List.replicate (cap - xs.length) default)
      (by simp [hpadlen]) (by simp; omega)
    simpa [hxs] using hdeq
  · simp [Queue.empty]

/-- Witness for C3 at the spec's concrete scenario: capacity 16,
values 0..14. -/
theorem C3_spsc_capacity_scenario_witness :
    (16 : Nat) = 2 ^ 4 ∧ (List.range 15).length = 16 - 1 ∧
    (∃ q1 q2,
      Queue.enqueueList 16 (Queue.init Nat 16) (List.range 15) =
        (List.replicate (16 - 1) true, q1) ∧
      Queue.full 16 q1 = true ∧
      Queue.enqueue 16 q1 99 = (false, q1) ∧
      Queue.dequeueN 16 q1 (16 - 1) = ((List.range 15).map some, q2) ∧
      Queue.empty q2 = true) :=
  ⟨by norm_num, by decide,
    C3_spsc_capacity_scenario 4 16 (by norm_num) (List.range 15) (by decide) 99⟩

/-- Claim C5: SPSC FIFO — for every sequence of values enqueued into a fresh
SPSC queue with every enqueue succeeding (the queue is never full at an
enqueue) and later dequeued, the dequeued sequence equals the enqueued
sequence exactly (same values, same order). -/
theorem C5_spsc_fifo [Inhabited α] (ck cap : Nat) (hcap : cap = 2 ^ ck)
    (xs : List α)
    (hok : (Queue.enqueueList cap (Queue.init α cap) xs).1 =
      List.replicate xs.length true) :
    (Queue.dequeueN cap (Queue.enqueueList cap (Queue.init α cap) xs).2
      xs.length).1 = xs.map some := by
  have hcap0 : 0 < cap := by
    subst hcap; exact Nat.pos_pow_of_pos ck (by norm_num)
  -- every enqueue succeeded, so fewer than `cap` values were enqueued
  have hlt : xs.length < cap := by
    by_contra hge
    push_neg at hge
    obtain ⟨b, bs, hrest⟩ : ∃ b bs, xs.drop (cap - 1) = b :: bs := by
      cases hdrop : xs.drop (cap - 1) with
      | nil =>
        have := List.drop_eq_nil_iff.mp hdrop
        omega
      | cons b bs => exact ⟨b, bs, rfl⟩
    have hxs' : xs = xs.take (cap - 1) ++ (b :: bs) := by
      rw [← hrest, List.take_append_drop]
    have htake : (xs.take (cap - 1)).length = cap - 1 := by
      rw [List.length_take]; omega
    have hshape : Queue.enqueueList cap (Queue.init α cap) (xs.take (cap - 1)) =
        (List.replicate (cap - 1) true,
         ⟨xs.take (cap - 1) ++ List.replicate (cap - (cap - 1)) default, 0, cap - 1⟩) := by
      have h0 := Queue.enqueueList_shape cap hcap [] (xs.take (cap - 1))
        (by simp [htake]; omega)
      simpa [Queue.init, htake] using h0
    have hwrap0 : wrap cap (cap - 1 + 1) = 0 := by
      subst hcap
      rw [wrap_eq_mod, show 2 ^ ck - 1 + 1 = 2 ^ ck by omega, Nat.mod_self]
    have hfail : (Queue.enqueue cap
        ⟨xs.take (cap - 1) ++ List.replicate (cap - (cap - 1)) default, 0, cap - 1⟩ b).1
        = false := by
      simp [Queue.enqueue, hwrap0]
    rw [hxs', Queue.enqueueList_append, hshape] at hok
    dsimp only at hok
    have hlhs : (List.replicate (cap - 1) true ++
        (Queue.enqueueList cap
          ⟨xs.take (cap - 1) ++ List.replicate (cap - (cap - 1)) default, 0, cap - 1⟩
          (b :: bs)).1).getD (cap - 1) true = false := by
      rw [getD_append_right _ _ (by simp)]
      simp only [List.length_replicate, Nat.sub_self]
      simp only [Queue.enqueueList, List.getD_cons_zero]
      exact hfail
    have hrhs : (List.replicate (xs.take (cap - 1) ++ b :: bs).length true).getD
        (cap - 1) true = true := by
      apply getD_replicate
      simp [htake]
    rw [hok, hrhs] at hlhs
    exact Bool.noConfusion hlhs
  have hshape : Queue.enqueueList cap (Queue.init α cap) xs =
      (List.replicate xs.length true,
       ⟨xs ++ List.replicate (cap - xs.length) default, 0, xs.length⟩) := by
    have h0 := Queue.enqueueList_shape cap hcap [] xs (by simpa using hlt)
    simpa [Queue.init] using h0
  rw [hshape]
  have hdeq := Queue.dequeueN_shape cap hcap [] xs
    (List.replicate (cap - xs.length) default)
    (by simp; omega) (by simp; omega)
  simp only [List.length_nil, List.nil_append, Nat.zero_add] at hdeq
  rw [hdeq]

/-- Witness for C5: capacity 4, values [10, 20, 30]. -/
theorem C5_spsc_fifo_witness :
    (4 : Nat) = 2 ^ 2 ∧
    (Queue.enqueueList 4 (Queue.init Nat 4) [10, 20, 30]).1 =
      List.replicate [10, 20, 30].length true ∧
    (Queue.dequeueN 4 (Queue.enqueueList 4 (Queue.init Nat 4) [10, 20, 30]).2
      [10, 20, 30].length).1 = [10, 20, 30].map some :=
  ⟨by norm_num, by decide, C5_spsc_fifo 2 4 (by norm_num) [10, 20, 30] (by decide)⟩

end Spsc

/-! ## MPMC queue: sequence invariant -/

namespace Mpmc

variable {α : Type}

theorem eq_of_mod_eq_of_close {cap p q : Nat} (hcap : 0 < cap)
    (hmod : p % cap = q % cap) (h1 : p ≤ q) (h2 : q < p + cap) : p = q := by
  have h0 : (q - p) % cap = 0 := Nat.sub_mod_eq_zero_of_mod_eq hmod.symm
  have hlt : q - p < cap := by omega
  rw [Nat.mod_eq_of_lt hlt] at h0
  omega

theorem posOf_mod (cap D j : Nat) (hcap : 0 < cap) (hj : j < cap) :
    posOf cap D j % cap = j := by
  have hr : D % cap < cap := Nat.mod_lt _ hcap
  unfold posOf
  rw [Nat.add_mod_mod, ← Nat.mod_add_mod,
    show D % cap + (j + cap - D % cap) = j + cap by omega,
    Nat.add_mod_right]
  exact Nat.mod_eq_of_lt hj

theorem posOf_lb (cap D j : Nat) : D ≤ posOf cap D j :=
  Nat.le_add_right D _

theorem posOf_ub (cap D j : Nat) (hcap : 0 < cap) : posOf cap D j < D + cap := by
  have : (j + cap - D % cap) % cap < cap := Nat.mod_lt _ hcap
  unfold posOf
  omega

theorem posOf_unique (cap D j p : Nat) (hcap : 0 < cap) (hj : j < cap)
    (h1 : D ≤ p) (h2 : p < D + cap) (h3 : p % cap = j) : p = posOf cap D j := by
  have hmod : p % cap = posOf cap D j % cap := by
    rw [h3, posOf_mod cap D j hcap hj]
  rcases Nat.le_total p (posOf cap D j) with hle | hle
  · exact eq_of_mod_eq_of_close hcap hmod hle
      (lt_of_lt_of_le (posOf_ub cap D j hcap) (by omega))
  · exact (eq_of_mod_eq_of_close hcap hmod.symm hle
      (lt_of_lt_of_le h2 (by have := posOf_lb cap D j; omega))).symm

theorem posOf_self (cap D : Nat) (hcap : 0 < cap) : posOf cap D (D % cap) = D :=
  (posOf_unique cap D (D % cap) D hcap (Nat.mod_lt _ hcap) (Nat.le_refl D)
    (by omega) rfl).symm

/-- Preservation of the invariant by a terminating `enqueue`. -/
theorem Inv_enqueue [Inhabited α] (ck cap : Nat) (hcap : cap = 2 ^ ck)
    (hk : 1 ≤ ck) (q : Queue α) (item : α) (b : Bool) (q' : Queue α)
    (hinv : Inv cap q) (h : Queue.enqueue cap q item = some (b, q')) :
    Inv cap q' := by
  obtain ⟨hlen, hDE, hED, hslots⟩ := hinv
  have hcap0 : 0 < cap := by subst hcap; exact Nat.pos_pow_of_pos ck (by norm_num)
  have hcap2 : 2 ≤ cap := by
    subst hcap
    calc 2 = 2 ^ 1 := by norm_num
    _ ≤ 2 ^ ck := Nat.pow_le_pow_right (by norm_num) hk
  have hwrapE : wrap cap q.m_enqueuePos = q.m_enqueuePos % cap := by
    subst hcap; exact wrap_eq_mod ck _
  have hj0 : q.m_enqueuePos % cap < cap := Nat.mod_lt _ hcap0
  have hsl := hslots (q.m_enqueuePos % cap) hj0
  by_cases hfull : q.m_enqueuePos = q.m_dequeuePos + cap
  · -- full queue: the enqueue returns false and leaves the state unchanged
    have hmodeq : q.m_enqueuePos % cap = q.m_dequeuePos % cap := by
      rw [hfull, Nat.add_mod_right]
    have hposD : posOf cap q.m_dequeuePos (q.m_enqueuePos % cap) =
        q.m_dequeuePos := by
      rw [hmodeq]; exact posOf_self cap _ hcap0
    have hseq : (q.m_buffer.getD (q.m_enqueuePos % cap) ⟨0, default⟩).sequence =
        q.m_dequeuePos + 1 := by
      rw [hsl.1 (by rw [hposD]; omega), hposD]
    have henq : Queue.enqueue cap q item = some (false, q) := by
      simp only [Queue.enqueue]
      rw [hwrapE, hseq, if_neg (by rw [hfull]; push_cast; omega),
        if_pos (by rw [hfull]; push_cast; omega)]
    rw [henq] at h
    obtain ⟨rfl, rfl⟩ : b = false ∧ q' = q := by
      have := Option.some.inj h
      exact ⟨(Prod.mk.injEq _ _ _ _ ▸ this).1.symm, (Prod.mk.injEq _ _ _ _ ▸ this).2.symm⟩
    exact ⟨hlen, hDE, hED, hslots⟩
  · -- a free slot at the enqueue cursor: the enqueue succeeds
    have hElt : q.m_enqueuePos < q.m_dequeuePos + cap := by omega
    have hposE : posOf cap q.m_dequeuePos (q.m_enqueuePos % cap) =
        q.m_enqueuePos :=
      (posOf_unique cap _ _ _ hcap0 hj0 hDE hElt rfl).symm
    have hseq : (q.m_buffer.getD (q.m_enqueuePos % cap) ⟨0, default⟩).sequence =
        q.m_enqueuePos := by
      rw [hsl.2 (by rw [hposE]), hposE]
    have henq : Queue.enqueue cap q item = some (true, { q with
        m_buffer := q.m_buffer.set (q.m_enqueuePos % cap)
          ⟨q.m_enqueuePos + 1, item⟩,
        m_enqueuePos := q.m_enqueuePos + 1 }) := by
      simp only [Queue.enqueue]
      rw [hwrapE, hseq, if_pos (by push_cast; omega)]
    rw [henq] at h
    obtain ⟨rfl, rfl⟩ : b = true ∧ q' = { q with
        m_buffer := q.m_buffer.set (q.m_enqueuePos % cap)
          ⟨q.m_enqueuePos + 1, item⟩,
        m_enqueuePos := q.m_enqueuePos + 1 } := by
      have := Option.some.inj h
      exact ⟨(Prod.mk.injEq _ _ _ _ ▸ this).1.symm, (Prod.mk.injEq _ _ _ _ ▸ this).2.symm⟩
    refine ⟨by simpa using hlen, by simp; omega, by simp; omega, ?_⟩
    intro j hj
    by_cases hjj : j = q.m_enqueuePos % cap
    · subst hjj
      have : (q.m_buffer.set (q.m_enqueuePos % cap)
          ⟨q.m_enqueuePos + 1, item⟩).getD (q.m_enqueuePos % cap) ⟨0, default⟩ =
          ⟨q.m_enqueuePos + 1, item⟩ :=
        getD_set_self _ (by rw [hlen]; exact hj) _ _
      simp only [this]
      constructor
      · intro _
        rw [hposE]
      · intro hle
        rw [hposE] at hle
        omega
    · have : (q.m_buffer.set (q.m_enqueuePos % cap)
          ⟨q.m_enqueuePos + 1, item⟩).getD j ⟨0, default⟩ =
          q.m_buffer.getD j ⟨0, default⟩ :=
        getD_set_ne _ (fun hh => hjj hh.symm) _ _
      simp only [this]
      have hsl' := hslots j hj
      constructor
      · intro hlt
        rcases Nat.lt_or_ge (posOf cap q.m_dequeuePos j) q.m_enqueuePos with hc | hc
        · exact hsl'.1 hc
        · exfalso
          have heq : posOf cap q.m_dequeuePos j = q.m_enqueuePos := by omega
          apply hjj
          rw [← posOf_mod cap q.m_dequeuePos j hcap0 hj, heq]
      · intro hge
        exact hsl'.2 (by omega)

/-- Preservation of the invariant by a terminating `dequeue`. -/
theorem Inv_dequeue [Inhabited α] (ck cap : Nat) (hcap : cap = 2 ^ ck)
    (hk : 1 ≤ ck) (q : Queue α) (o : Option α) (q' : Queue α)
    (hinv : Inv cap q) (h : Queue.dequeue cap q = some (o, q')) :
    Inv cap q' := by
  obtain ⟨hlen, hDE, hED, hslots⟩ := hinv
  have hcap0 : 0 < cap := by subst hcap; exact Nat.pos_pow_of_pos ck (by norm_num)
  have hwrapD : wrap cap q.m_dequeuePos = q.m_dequeuePos % cap := by
    subst hcap; exact wrap_eq_mod ck _
  have hj0 : q.m_dequeuePos % cap < cap := Nat.mod_lt _ hcap0
  have hsl := hslots (q.m_dequeuePos % cap) hj0
  have hposD : posOf cap q.m_dequeuePos (q.m_dequeuePos % cap) =
      q.m_dequeuePos := posOf_self cap _ hcap0
  by_cases hempty : q.m_enqueuePos = q.m_dequeuePos
  · -- empty queue: dequeue returns none and leaves the state unchanged
    have hseq : (q.m_buffer.getD (q.m_dequeuePos % cap) ⟨0, default⟩).sequence =
        q.m_dequeuePos := by
      rw [hsl.2 (by rw [hposD, hempty]), hposD]
    have hdeq : Queue.dequeue cap q = some (none, q) := by
      simp only [Queue.dequeue]
      rw [hwrapD, hseq, if_neg (by push_cast; omega),
        if_pos (by push_cast; omega)]
    rw [hdeq] at h
    obtain ⟨rfl, rfl⟩ : o = none ∧ q' = q := by
      have := Option.some.inj h
      exact ⟨(Prod.mk.injEq _ _ _ _ ▸ this).1.symm, (Prod.mk.injEq _ _ _ _ ▸ this).2.symm⟩
    exact ⟨hlen, hDE, hED, hslots⟩
  · -- non-empty queue: the slot at the dequeue cursor is ready for reading
    have hDlt : q.m_dequeuePos < q.m_enqueuePos := by omega
    have hseq : (q.m_buffer.getD (q.m_dequeuePos % cap) ⟨0, default⟩).sequence =
        q.m_dequeuePos + 1 := by
      rw [hsl.1 (by rw [hposD]; omega), hposD]
    have hdeq : Queue.dequeue cap q = some
        (some (q.m_buffer.getD (q.m_dequeuePos % cap) ⟨0, default⟩).data,
         { q with
           m_buffer := q.m_buffer.set (q.m_dequeuePos % cap)
             ⟨q.m_dequeuePos + cap,
              (q.m_buffer.getD (q.m_dequeuePos % cap) ⟨0, default⟩).data⟩,
           m_dequeuePos := q.m_dequeuePos + 1 }) := by
      simp only [Queue.dequeue]
      rw [hwrapD, hseq, if_pos (by push_cast; omega)]
    rw [hdeq] at h
    obtain ⟨rfl, rfl⟩ : o = some
        (q.m_buffer.getD (q.m_dequeuePos % cap) ⟨0, default⟩).data ∧
        q' = { q with
          m_buffer := q.m_buffer.set (q.m_dequeuePos % cap)
            ⟨q.m_dequeuePos + cap,
             (q.m_buffer.getD (q.m_dequeuePos % cap) ⟨0, default⟩).data⟩,
          m_dequeuePos := q.m_dequeuePos + 1 } := by
      have := Option.some.inj h
      exact ⟨(Prod.mk.injEq _ _ _ _ ▸ this).1.symm, (Prod.mk.injEq _ _ _ _ ▸ this).2.symm⟩
    refine ⟨by simpa using hlen, by simp; omega, by simp; omega, ?_⟩
    intro j hj
    by_cases hjj : j = q.m_dequeuePos % cap
    · subst hjj
      have hget : (q.m_buffer.set (q.m_dequeuePos % cap)
          ⟨q.m_dequeuePos + cap,
           (q.m_buffer.getD (q.m_dequeuePos % cap) ⟨0, default⟩).data⟩).getD
          (q.m_dequeuePos % cap) ⟨0, default⟩ =
          ⟨q.m_dequeuePos + cap,
           (q.m_buffer.getD (q.m_dequeuePos % cap) ⟨0, default⟩).data⟩ :=
        getD_set_self _ (by rw [hlen]; exact hj) _ _
      simp only [hget]
      have hposD' : posOf cap (q.m_dequeuePos + 1) (q.m_dequeuePos % cap) =
          q.m_dequeuePos + cap :=
        (posOf_unique cap _ _ _ hcap0 hj0 (by omega) (by omega)
          (Nat.add_mod_right _ _)).symm
      constructor
      · intro hlt
        rw [hposD'] at hlt
        omega
      · intro _
        rw [hposD']
    · have hget : (q.m_buffer.set (q.m_dequeuePos % cap)
          ⟨q.m_dequeuePos + cap,
           (q.m_buffer.getD (q.m_dequeuePos % cap) ⟨0, default⟩).data⟩).getD
          j ⟨0, default⟩ = q.m_buffer.getD j ⟨0, default⟩ :=
        getD_set_ne _ (fun hh => hjj hh.symm) _ _
      simp only [hget]
      have hsl' := hslots j hj
      have hshift : posOf cap (q.m_dequeuePos + 1) j =
          posOf cap q.m_dequeuePos j := by
        have hp := posOf_mod cap q.m_dequeuePos j hcap0 hj
        have hlb := posOf_lb cap q.m_dequeuePos j
        have hub := posOf_ub cap q.m_dequeuePos j hcap0
        have hne : posOf cap q.m_dequeuePos j ≠ q.m_dequeuePos := by
          intro he
          apply hjj
          rw [← hp, he]
        exact (posOf_unique cap _ _ _ hcap0 hj (by omega) (by omega) hp).symm
      refine ⟨?_, ?_⟩
      · intro hlt
        rw [hshift] at hlt ⊢
        exact hsl'.1 hlt
      · intro hge
        rw [hshift] at hge ⊢
        exact hsl'.2 hge

/-- The invariant holds in the initial state. -/
theorem Inv_init [Inhabited α] (ck cap : Nat) (hcap : cap = 2 ^ ck) :
    Inv cap (Queue.init α cap) := by
  have hcap0 : 0 < cap := by subst hcap; exact Nat.pos_pow_of_pos ck (by norm_num)
  refine ⟨by simp [Queue.init], Nat.le_refl 0, Nat.zero_le _, ?_⟩
  intro j hj
  have hget : ((Queue.init α cap).m_buffer.getD j ⟨0, default⟩) = ⟨j, default⟩ := by
    simp only [Queue.init]
    exact getD_range_map _ hj _
  have hpos : posOf cap 0 j = j :=
    (posOf_unique cap 0 j j hcap0 hj (Nat.zero_le j) (by omega)
      (Nat.mod_eq_of_lt hj)).symm
  rw [hget]
  show slotOk cap 0 0 j j
  refine ⟨?_, ?_⟩
  · intro hlt
    rw [hpos] at hlt
    omega
  · intro _
    exact hpos.symm

/-- The invariant holds in every reachable state (capacity at least 2). -/
theorem Inv_reachable [Inhabited α] (ck cap : Nat)
    (hcap : cap = 2 ^ ck) (hk : 1 ≤ ck) (q : Queue α)
    (hr : Reachable α cap q) : Inv cap q := by
  induction hr with
  | refl => exact Inv_init ck cap hcap
  | tail hsteps hstep ih =>
    cases hstep with
    | enqueue item bb heq => exact Inv_enqueue ck cap hcap hk _ item bb _ ih heq
    | dequeue o heq => exact Inv_dequeue ck cap hcap hk _ o _ ih heq

/-- The capacity-1 queue state after two successful enqueues is
reachable. -/
theorem reach_cap1_two_enqueues :
    Reachable Nat 1 ⟨[⟨2, 7⟩], 2, 0⟩ := by
  have h1 : Queue.enqueue 1 (Queue.init Nat 1) 5 =
      some (true, ⟨[⟨1, 5⟩], 1, 0⟩) := by decide
  have h2 : Queue.enqueue 1 (⟨[⟨1, 5⟩], 1, 0⟩ : Queue Nat) 7 =
      some (true, ⟨[⟨2, 7⟩], 2, 0⟩) := by decide
  exact Relation.ReflTransGen.tail
    (Relation.ReflTransGen.single (Step.enqueue _ _ 5 true h1))
    (Step.enqueue _ _ 7 true h2)

/-- Claim C8 (amended: capacity at least 2): in every state of the MPMC
queue reachable from a fresh queue by any sequence of enqueue and dequeue
calls, each slot's sequence encodes its state relative to the logical
position p the slot is currently responsible for: sequence = p + 1 when
position p is pending (ready-for-read at p), and sequence = p when the slot
is free (ready-for-write at p; for a slot whose last position pos has been
consumed, p = pos + capacity, the next reusable position). -/
theorem C8_mpmc_sequence_invariant [Inhabited α] (ck cap : Nat)
    (hcap : cap = 2 ^ ck) (hk : 1 ≤ ck) (q : Queue α)
    (hr : Reachable α cap q) : Inv cap q :=
  Inv_reachable ck cap hcap hk q hr

/-- Witness for C8 at capacity 2, after a single enqueue of the value 5. -/
theorem C8_mpmc_sequence_invariant_witness :
    (2 : Nat) = 2 ^ 1 ∧ 1 ≤ 1 ∧
    Inv 2 (⟨[⟨1, 5⟩, ⟨1, 0⟩], 1, 0⟩ : Queue Nat) :=
  ⟨by norm_num, Nat.le_refl 1,
    C8_mpmc_sequence_invariant 1 2 (by norm_num) (Nat.le_refl 1) _
      (Relation.ReflTransGen.single (Step.enqueue _ _ 5 true (by decide)))⟩

/-- Counterexample to C8 as stated: capacity 1 is a power of two accepted by
the source's static_assert, yet after two enqueues the reachable state
violates the sequence encoding: the slot is responsible for pending position
0 (so its sequence should be 1), but its sequence is 2. -/
theorem C8_mpmc_counterexample :
    Reachable Nat 1 ⟨[⟨2, 7⟩], 2, 0⟩ ∧ ¬ Inv 1 ⟨[⟨2, 7⟩], 2, 0⟩ := by
  refine ⟨reach_cap1_two_enqueues, ?_⟩
  intro hinv
  have hs := (hinv.2.2.2 0 (by decide)).1 (by decide)
  exact absurd hs (by decide)

/-- State-shape lemma: with the first `ws.length` logical positions of a
fresh queue already enqueued with values `ws`, enqueueing `xs` (staying
within capacity) succeeds entirely and extends the occupied prefix. -/
theorem Queue.enqueueList_fill [Inhabited α] (ck cap : Nat) (hcap : cap = 2 ^ ck)
    (ws xs : List α) (h : ws.length + xs.length ≤ cap) :
    Queue.enqueueList cap
      ⟨(List.range cap).map (fun i =>
        ⟨if i < ws.length then i + 1 else i, ws.getD i default⟩), ws.length, 0⟩ xs =
      some (List.replicate xs.length true,
        ⟨(List.range cap).map (fun i =>
          ⟨if i < ws.length + xs.length then i + 1 else i,
           (ws ++ xs).getD i default⟩),
         ws.length + xs.length, 0⟩) := by
  induction xs generalizing ws with
  | nil => simp [Queue.enqueueList]
  | cons x xs ih =>
    simp only [List.length_cons] at h ⊢
    have hn : ws.length < cap := by omega
    have hwrap : wrap cap ws.length = ws.length := by
      subst hcap
      rw [wrap_eq_mod]
      exact Nat.mod_eq_of_lt hn
    have hcell : ((List.range cap).map (fun i =>
        (⟨if i < ws.length then i + 1 else i, ws.getD i default⟩ : Queue.Cell α))).getD
        ws.length ⟨0, default⟩ = ⟨ws.length, ws.getD ws.length default⟩ := by
      rw [getD_range_map _ hn]
      simp
    have hbuf : ((List.range cap).map (fun i =>
        (⟨if i < ws.length then i + 1 else i, ws.getD i default⟩ : Queue.Cell α))).set
        ws.length ⟨ws.length + 1, x⟩ =
        (List.range cap).map (fun i =>
          ⟨if i < ws.length + 1 then i + 1 else i, (ws ++ [x]).getD i default⟩) := by
      apply List.ext_getElem (by simp)
      intro i h₁ h₂
      simp only [List.length_set, List.length_map, List.length_range] at h₁
      by_cases hi : i = ws.length
      · subst hi
        rw [List.getElem_set_self]
        simp only [List.getElem_map, List.getElem_range]
        rw [if_pos (by omega), getD_append_right _ _ (Nat.le_refl _)]
        simp
      · rw [List.getElem_set_ne (fun hh => hi hh.symm)]
        simp only [List.getElem_map, List.getElem_range]
        rcases Nat.lt_or_ge i ws.length with hc | hc
        · rw [if_pos hc, if_pos (by omega), getD_append_left _ _ hc]
        · have hgt : ws.length < i := by omega
          rw [if_neg (by omega), if_neg (by omega),
            getD_eq_default _ hc, getD_eq_default _ (by simp; omega)]
    have henq : Queue.enqueue cap
        ⟨(List.range cap).map (fun i =>
          ⟨if i < ws.length then i + 1 else i, ws.getD i default⟩), ws.length, 0⟩ x =
        some (true,
          ⟨(List.range cap).map (fun i =>
            ⟨if i < ws.length + 1 then i + 1 else i, (ws ++ [x]).getD i default⟩),
           ws.length + 1, 0⟩) := by
      simp only [Queue.enqueue]
      rw [hwrap, hcell]
      rw [if_pos (by push_cast; omega)]
      rw [hbuf]
    have ih' := ih (ws ++ [x]) (by simp; omega)
    simp only [List.length_append, List.length_cons, List.length_nil,
      Nat.zero_add] at ih'
    simp only [Queue.enqueueList, henq]
    rw [ih']
    simp only [show (ws ++ [x]) ++ xs = ws ++ (x :: xs) from by simp,
      show ws.length + 1 + xs.length = ws.length + (xs.length + 1) from by omega,
      List.replicate_succ]

/-- State-shape lemma for draining: with values `ys ++ zs` occupying the
logical positions of the queue and `ys` already consumed, dequeueing
`zs.length` items returns exactly `zs` in order. -/
theorem Queue.dequeueN_drain [Inhabited α] (ck cap : Nat) (hcap : cap = 2 ^ ck)
    (ys zs : List α) (h : ys.length + zs.length ≤ cap) :
    Queue.dequeueN cap
      ⟨(List.range cap).map (fun i =>
        ⟨if i < ys.length then i + cap
         else if i < ys.length + zs.length then i + 1 else i,
         (ys ++ zs).getD i default⟩),
       ys.length + zs.length, ys.length⟩ zs.length =
      some (zs.map some,
        ⟨(List.range cap).map (fun i =>
          ⟨if i < ys.length + zs.length then i + cap else i,
           (ys ++ zs).getD i default⟩),
         ys.length + zs.length, ys.length + zs.length⟩) := by
  induction zs generalizing ys with
  | nil =>
    have hmap : (List.range cap).map (fun i =>
        (⟨if i < ys.length then i + cap
          else if i < ys.length then i + 1 else i, ys.getD i default⟩ : Queue.Cell α)) =
        (List.range cap).map (fun i =>
          (⟨if i < ys.length then i + cap else i, ys.getD i default⟩ : Queue.Cell α)) := by
      apply List.map_congr_left
      intro i _
      by_cases hi : i < ys.length
      · simp [hi]
      · simp [hi]
    simp only [Queue.dequeueN, List.length_nil, Nat.add_zero, List.append_nil,
      List.map_nil, hmap]
  | cons z zs ih =>
    simp only [List.length_cons, List.map_cons] at h ⊢
    have hm : ys.length < cap := by omega
    have hwrap : wrap cap ys.length = ys.length := by
      subst hcap
      rw [wrap_eq_mod]
      exact Nat.mod_eq_of_lt hm
    have hgetz : (ys ++ z :: zs).getD ys.length default = z := by
      rw [getD_append_right _ _ (Nat.le_refl _)]
      simp
    have hcell : ((List.range cap).map (fun i =>
        (⟨if i < ys.length then i + cap
          else if i < ys.length + (zs.length + 1) then i + 1 else i,
          (ys ++ z :: zs).getD i default⟩ : Queue.Cell α))).getD
        ys.length ⟨0, default⟩ = ⟨ys.length + 1, z⟩ := by
      rw [getD_range_map _ hm]
      rw [if_neg (by omega), if_pos (by omega), hgetz]
    have hbuf : ((List.range cap).map (fun i =>
        (⟨if i < ys.length then i + cap
          else if i < ys.length + (zs.length + 1) then i + 1 else i,
          (ys ++ z :: zs).getD i default⟩ : Queue.Cell α))).set
        ys.length ⟨ys.length + cap, z⟩ =
        (List.range cap).map (fun i =>
          ⟨if i < ys.length + 1 then i + cap
           else if i < ys.length + (zs.length + 1) then i + 1 else i,
           (ys ++ z :: zs).getD i default⟩) := by
      apply List.ext_getElem (by simp)
      intro i h₁ h₂
      simp only [List.length_set, List.length_map, List.length_range] at h₁
      by_cases hi : i = ys.length
      · subst hi
        rw [List.getElem_set_self]
        simp only [List.getElem_map, List.getElem_range]
        rw [if_pos (by omega), hgetz]
      · rw [List.getElem_set_ne (fun hh => hi hh.symm)]
        simp only [List.getElem_map, List.getElem_range]
        rcases Nat.lt_or_ge i ys.length with hc | hc
        · rw [if_pos hc, if_pos (by omega)]
        · have h1 : ¬ (i < ys.length) := by omega
          have h2 : ¬ (i < ys.length + 1) := by omega
          rw [if_neg h1, if_neg h2]
    have hdeq : Queue.dequeue cap
        ⟨(List.range cap).map (fun i =>
          ⟨if i < ys.length then i + cap
           else if i < ys.length + (zs.length + 1) then i + 1 else i,
           (ys ++ z :: zs).getD i default⟩),
         ys.length + (zs.length + 1), ys.length⟩ =
        some (some z,
          ⟨(List.range cap).map (fun i =>
            ⟨if i < ys.length + 1 then i + cap
             else if i < ys.length + (zs.length + 1) then i + 1 else i,
             (ys ++ z :: zs).getD i default⟩),
           ys.length + (zs.length + 1), ys.length + 1⟩) := by
      simp only [Queue.dequeue]
      rw [hwrap, hcell]
      rw [if_pos (by push_cast; omega)]
      rw [hbuf]
    have ih' := ih (ys ++ [z]) (by simp; omega)
    simp only [List.length_append, List.length_cons, List.length_nil,
      Nat.zero_add, List.append_assoc, List.singleton_append] at ih'
    simp only [show ys.length + 1 + zs.length = ys.length + (zs.length + 1)
      from by omega] at ih'
    simp only [Queue.dequeueN, hdeq]
    rw [ih']

/-- Claim C4 (amended: capacity at least 2): a fresh MPMC queue of
power-of-two capacity C ≥ 2 used single-threaded accepts exactly C
consecutive enqueues (each returns true); afterwards full() reports true,
the (C+1)-th enqueue attempt returns false with the queue state unchanged
(no partial mutation, the item not stored), and all C enqueued items can
still be dequeued afterwards in their enqueue order. -/
theorem C4_mpmc_capacity_bound [Inhabited α] (ck cap : Nat) (hcap : cap = 2 ^ ck)
    (hk : 1 ≤ ck) (xs : List α) (hlen : xs.length = cap) (y : α) :
    ∃ q1 q2,
      Queue.enqueueList cap (Queue.init α cap) xs =
        some (List.replicate cap true, q1) ∧
      Queue.full cap q1 = true ∧
      Queue.enqueue cap q1 y = some (false, q1) ∧
      Queue.dequeueN cap q1 cap = some (xs.map some, q2) := by
  have hcap0 : 0 < cap := by subst hcap; exact Nat.pos_pow_of_pos ck (by norm_num)
  have hcap2 : 2 ≤ cap := by
    subst hcap
    calc 2 = 2 ^ 1 := by norm_num
    _ ≤ 2 ^ ck := Nat.pow_le_pow_right (by norm_num) hk
  have hinit : Queue.init α cap =
      ⟨(List.range cap).map (fun i =>
        ⟨if i < (0 : Nat) then i + 1 else i, ([] : List α).getD i default⟩), 0, 0⟩ := by
    simp only [Queue.init]
    rw [List.map_congr_left (fun i _ => by simp :
      ∀ i ∈ List.range cap, (⟨i, default⟩ : Queue.Cell α) =
        ⟨if i < (0 : Nat) then i + 1 else i, ([] : List α).getD i default⟩)]
  have hfill := Queue.enqueueList_fill ck cap hcap [] xs (by simp [hlen])
  have h1 : Queue.enqueueList cap (Queue.init α cap) xs =
      some (List.replicate xs.length true,
        ⟨(List.range cap).map (fun i =>
          ⟨if i < [].length + xs.length then i + 1 else i,
           (([] : List α) ++ xs).getD i default⟩),
         [].length + xs.length, 0⟩) :=
    (congrArg (fun q => Queue.enqueueList cap q xs) hinit).trans hfill
  simp only [List.length_nil, Nat.zero_add, List.nil_append, hlen] at h1
  refine ⟨⟨(List.range cap).map (fun i =>
      ⟨if i < cap then i + 1 else i, xs.getD i default⟩), cap, 0⟩,
    ⟨(List.range cap).map (fun i =>
      ⟨if i < cap then i + cap else i, xs.getD i default⟩), cap, cap⟩,
    h1, ?_, ?_, ?_⟩
  · simp [Queue.full]
  · -- the (C+1)-th enqueue observes sequence 1 at slot 0 and fails
    have hwrap0 : wrap cap cap = 0 := by
      subst hcap
      rw [wrap_eq_mod, Nat.mod_self]
    have hcell : ((List.range cap).map (fun i =>
        (⟨if i < cap then i + 1 else i, xs.getD i default⟩ : Queue.Cell α))).getD
        0 ⟨0, default⟩ = ⟨1, xs.getD 0 default⟩ := by
      rw [getD_range_map _ hcap0, if_pos hcap0]
    simp only [Queue.enqueue]
    rw [hwrap0, hcell, if_neg (by push_cast; omega), if_pos (by push_cast; omega)]
  · have hdrain := Queue.dequeueN_drain ck cap hcap [] xs (by simp [hlen])
    simp only [List.length_nil, Nat.zero_add, List.nil_append, hlen] at hdrain
    have hbufeq : (List.range cap).map (fun i =>
        (⟨if i < cap then i + 1 else i, xs.getD i default⟩ : Queue.Cell α)) =
        (List.range cap).map (fun i =>
          ⟨if i < (0 : Nat) then i + cap else if i < cap then i + 1 else i,
           xs.getD i default⟩) :=
      List.map_congr_left (fun i _ => by simp)
    exact (congrArg (fun b =>
      Queue.dequeueN cap (⟨b, cap, 0⟩ : Queue α) cap) hbufeq).trans hdrain

/-- Witness for C4 at capacity 2 with values [3, 4]. -/
theorem C4_mpmc_capacity_bound_witness :
    (2 : Nat) = 2 ^ 1 ∧ 1 ≤ 1 ∧ ([3, 4] : List Nat).length = 2 ∧
    (∃ q1 q2,
      Queue.enqueueList 2 (Queue.init Nat 2) [3, 4] =
        some (List.replicate 2 true, q1) ∧
      Queue.full 2 q1 = true ∧
      Queue.enqueue 2 q1 9 = some (false, q1) ∧
      Queue.dequeueN 2 q1 2 = some ([3, 4].map some, q2)) :=
  ⟨by norm_num, Nat.le_refl 1, by decide,
    C4_mpmc_capacity_bound 1 2 (by norm_num) (Nat.le_refl 1) [3, 4] (by decide) 9⟩

/-- Counterexample to C4 as stated: capacity 1 is a power of two accepted by
the source's static_assert, yet a fresh capacity-1 queue accepts a second
enqueue: both enqueues return true (the second overwrites the slot), where
the claim demands the second to return false. -/
theorem C4_mpmc_counterexample :
    Queue.enqueueList 1 (Queue.init Nat 1) [5, 7] =
      some ([true, true], ⟨[⟨2, 7⟩], 2, 0⟩) := by
  decide

/-! ## Hash map: probe-loop step lemmas -/

section HashMapProofs

variable {κ ν : Type} [DecidableEq κ] [Inhabited κ] [Inhabited ν]

theorem probeAt_def (t : HashMap.Table κ ν) (index i : Nat) :
    t.m_buffer.getD (wrap t.m_capacity (index + i)) HashMap.dcell =
      HashMap.probeAt t index i := rfl

theorem insertLoop_cons_empty (t : HashMap.Table κ ν) (key : κ) (value : ν)
    (index i : Nat) (rest : List Nat)
    (hst : (HashMap.probeAt t index i).state
      = .empty) :
    HashMap.Table.insertLoop t key value index (i :: rest) =
      (true, { t with
        m_buffer := t.m_buffer.set (wrap t.m_capacity (index + i)) ⟨.full, key, value⟩,
        m_size := t.m_size + 1 }) := by
  simp only [HashMap.Table.insertLoop, probeAt_def, hst]

theorem insertLoop_cons_full_hit (t : HashMap.Table κ ν) (key : κ) (value : ν)
    (index i : Nat) (rest : List Nat)
    (hst : (HashMap.probeAt t index i).state
      = .full)
    (hkey : (HashMap.probeAt t index i).key
      = key) :
    HashMap.Table.insertLoop t key value index (i :: rest) = (false, t) := by
  simp only [HashMap.Table.insertLoop, probeAt_def, hst]
  rw [if_pos hkey]

theorem insertLoop_cons_full_miss (t : HashMap.Table κ ν) (key : κ) (value : ν)
    (index i : Nat) (rest : List Nat)
    (hst : (HashMap.probeAt t index i).state
      = .full)
    (hkey : ¬ (HashMap.probeAt t index i).key
      = key) :
    HashMap.Table.insertLoop t key value index (i :: rest) =
      HashMap.Table.insertLoop t key value index rest := by
  simp only [HashMap.Table.insertLoop, probeAt_def, hst]
  rw [if_neg hkey]

theorem insertLoop_cons_writing (t : HashMap.Table κ ν) (key : κ) (value : ν)
    (index i : Nat) (rest : List Nat)
    (hst : (HashMap.probeAt t index i).state
      = .writing) :
    HashMap.Table.insertLoop t key value index (i :: rest) =
      HashMap.Table.insertLoop t key value index rest := by
  simp only [HashMap.Table.insertLoop, probeAt_def, hst]

theorem insertLoop_cons_deleted (t : HashMap.Table κ ν) (key : κ) (value : ν)
    (index i : Nat) (rest : List Nat)
    (hst : (HashMap.probeAt t index i).state
      = .deleted) :
    HashMap.Table.insertLoop t key value index (i :: rest) =
      HashMap.Table.insertLoop t key value index rest := by
  simp only [HashMap.Table.insertLoop, probeAt_def, hst]

theorem getLoop_cons_full_hit (t : HashMap.Table κ ν) (key : κ)
    (index i : Nat) (rest : List Nat)
    (hst : (HashMap.probeAt t index i).state
      = .full)
    (hkey : (HashMap.probeAt t index i).key
      = key) :
    HashMap.Table.getLoop t key index (i :: rest) =
      some (HashMap.probeAt t index i).value := by
  simp only [HashMap.Table.getLoop, probeAt_def]
  rw [if_pos hst, if_pos hkey]

theorem getLoop_cons_full_miss (t : HashMap.Table κ ν) (key : κ)
    (index i : Nat) (rest : List Nat)
    (hst : (HashMap.probeAt t index i).state
      = .full)
    (hkey : ¬ (HashMap.probeAt t index i).key
      = key) :
    HashMap.Table.getLoop t key index (i :: rest) =
      HashMap.Table.getLoop t key index rest := by
  simp only [HashMap.Table.getLoop, probeAt_def]
  rw [if_pos hst, if_neg hkey]

theorem getLoop_cons_empty (t : HashMap.Table κ ν) (key : κ)
    (index i : Nat) (rest : List Nat)
    (hst : (HashMap.probeAt t index i).state
      = .empty) :
    HashMap.Table.getLoop t key index (i :: rest) = none := by
  simp only [HashMap.Table.getLoop, probeAt_def]
  rw [if_neg (by rw [hst]; intro h; cases h), if_pos hst]

theorem getLoop_cons_other (t : HashMap.Table κ ν) (key : κ)
    (index i : Nat) (rest : List Nat)
    (h1 : ¬ (HashMap.probeAt t index i).state
      = .full)
    (h2 : ¬ (HashMap.probeAt t index i).state
      = .empty) :
    HashMap.Table.getLoop t key index (i :: rest) =
      HashMap.Table.getLoop t key index rest := by
  simp only [HashMap.Table.getLoop, probeAt_def]
  rw [if_neg h1, if_neg h2]

theorem removeLoop_cons_hit (t : HashMap.Table κ ν) (key : κ)
    (index i : Nat) (rest : List Nat)
    (hst : (HashMap.probeAt t index i).state
      = .full)
    (hkey : (HashMap.probeAt t index i).key
      = key) :
    HashMap.Table.removeLoop t key index (i :: rest) =
      (true, { t with
        m_buffer := t.m_buffer.set (wrap t.m_capacity (index + i))
          { HashMap.probeAt t index i with state := .deleted },
        m_size := t.m_size - 1 }) := by
  simp only [HashMap.Table.removeLoop, probeAt_def]
  rw [if_pos ⟨hst, hkey⟩]

theorem removeLoop_cons_empty (t : HashMap.Table κ ν) (key : κ)
    (index i : Nat) (rest : List Nat)
    (hst : (HashMap.probeAt t index i).state
      = .empty) :
    HashMap.Table.removeLoop t key index (i :: rest) = (false, t) := by
  simp only [HashMap.Table.removeLoop, probeAt_def]
  rw [if_neg (by rw [hst]; intro h; cases h.1), if_pos hst]

theorem removeLoop_cons_skip (t : HashMap.Table κ ν) (key : κ)
    (index i : Nat) (rest : List Nat)
    (hcond : ¬ ((HashMap.probeAt t index i).state
      = .full ∧
      (HashMap.probeAt t index i).key = key))
    (hne : ¬ (HashMap.probeAt t index i).state
      = .empty) :
    HashMap.Table.removeLoop t key index (i :: rest) =
      HashMap.Table.removeLoop t key index rest := by
  simp only [HashMap.Table.removeLoop, probeAt_def]
  rw [if_neg hcond, if_neg hne]

/-! ## Hash map: probe-loop induction lemmas -/

theorem insertLoop_false_eq (t : HashMap.Table κ ν) (key : κ) (value : ν)
    (index : Nat) : ∀ (offs : List Nat) (t' : HashMap.Table κ ν),
    HashMap.Table.insertLoop t key value index offs = (false, t') → t' = t := by
  intro offs
  induction offs with
  | nil =>
    intro t' h
    simp only [HashMap.Table.insertLoop] at h
    injection h with h1 h2
    exact h2.symm
  | cons i rest ih =>
    intro t' h
    cases hst : (t.m_buffer.getD (wrap t.m_capacity (index + i)) HashMap.dcell).state with
    | empty =>
      rw [insertLoop_cons_empty t key value index i rest hst] at h
      injection h with h1 h2
      exact Bool.noConfusion h1
    | full =>
      by_cases hkey : (t.m_buffer.getD (wrap t.m_capacity (index + i))
          HashMap.dcell).key = key
      · rw [insertLoop_cons_full_hit t key value index i rest hst hkey] at h
        injection h with h1 h2
        exact h2.symm
      · rw [insertLoop_cons_full_miss t key value index i rest hst hkey] at h
        exact ih t' h
    | writing =>
      rw [insertLoop_cons_writing t key value index i rest hst] at h
      exact ih t' h
    | deleted =>
      rw [insertLoop_cons_deleted t key value index i rest hst] at h
      exact ih t' h

theorem removeLoop_false_eq (t : HashMap.Table κ ν) (key : κ)
    (index : Nat) : ∀ (offs : List Nat) (t' : HashMap.Table κ ν),
    HashMap.Table.removeLoop t key index offs = (false, t') → t' = t := by
  intro offs
  induction offs with
  | nil =>
    intro t' h
    simp only [HashMap.Table.removeLoop] at h
    injection h with h1 h2
    exact h2.symm
  | cons i rest ih =>
    intro t' h
    by_cases hcond : (t.m_buffer.getD (wrap t.m_capacity (index + i))
        HashMap.dcell).state = .full ∧
        (t.m_buffer.getD (wrap t.m_capacity (index + i)) HashMap.dcell).key = key
    · rw [removeLoop_cons_hit t key index i rest hcond.1 hcond.2] at h
      injection h with h1 h2
      exact Bool.noConfusion h1
    · by_cases hemp : (t.m_buffer.getD (wrap t.m_capacity (index + i))
          HashMap.dcell).state = .empty
      · rw [removeLoop_cons_empty t key index i rest hemp] at h
        injection h with h1 h2
        exact h2.symm
      · rw [removeLoop_cons_skip t key index i rest hcond hemp] at h
        exact ih t' h

theorem getLoop_found (t : HashMap.Table κ ν) (key : κ) (index : Nat) :
    ∀ (n d e : Nat), d ≤ e → e < d + n →
    (HashMap.probeAt t index e).state = .full →
    (HashMap.probeAt t index e).key = key →
    (∀ f, d ≤ f → f < e → (HashMap.probeAt t index f).state ≠ .empty ∧
      ¬ ((HashMap.probeAt t index f).state = .full ∧
         (HashMap.probeAt t index f).key = key)) →
    HashMap.Table.getLoop t key index (List.range' d n) =
      some (HashMap.probeAt t index e).value := by
  intro n
  induction n with
  | zero =>
    intro d e h1 h2 _ _ _
    omega
  | succ n ih =>
    intro d e h1 h2 hfull hkey hpre
    rw [List.range'_succ d n 1]
    by_cases hde : d = e
    · subst hde
      exact getLoop_cons_full_hit t key index d _ hfull hkey
    · have hdlt : d < e := by omega
      have hp := hpre d (Nat.le_refl d) hdlt
      cases hs : (HashMap.probeAt t index d).state with
      | empty => exact absurd hs hp.1
      | full =>
        have hkne : ¬ (HashMap.probeAt t index d).key = key :=
          fun hk => hp.2 ⟨hs, hk⟩
        rw [getLoop_cons_full_miss t key index d _ hs hkne]
        exact ih (d + 1) e (by omega) (by omega) hfull hkey
          (fun f hf1 hf2 => hpre f (by omega) hf2)
      | writing =>
        rw [getLoop_cons_other t key index d _ (by rw [hs]; intro hh; cases hh)
          (by rw [hs]; intro hh; cases hh)]
        exact ih (d + 1) e (by omega) (by omega) hfull hkey
          (fun f hf1 hf2 => hpre f (by omega) hf2)
      | deleted =>
        rw [getLoop_cons_other t key index d _ (by rw [hs]; intro hh; cases hh)
          (by rw [hs]; intro hh; cases hh)]
        exact ih (d + 1) e (by omega) (by omega) hfull hkey
          (fun f hf1 hf2 => hpre f (by omega) hf2)

theorem getLoop_none (t : HashMap.Table κ ν) (key : κ) (index : Nat) :
    ∀ (n d : Nat),
    (∀ f, d ≤ f → f < d + n →
      ¬ ((HashMap.probeAt t index f).state = .full ∧
         (HashMap.probeAt t index f).key = key)) →
    HashMap.Table.getLoop t key index (List.range' d n) = none := by
  intro n
  induction n with
  | zero =>
    intro d _
    rfl
  | succ n ih =>
    intro d hno
    rw [List.range'_succ d n 1]
    cases hs : (HashMap.probeAt t index d).state with
    | empty => exact getLoop_cons_empty t key index d _ hs
    | full =>
      have hkne : ¬ (HashMap.probeAt t index d).key = key :=
        fun hk => hno d (Nat.le_refl d) (by omega) ⟨hs, hk⟩
      rw [getLoop_cons_full_miss t key index d _ hs hkne]
      exact ih (d + 1) (fun f hf1 hf2 => hno f (by omega) (by omega))
    | writing =>
      rw [getLoop_cons_other t key index d _ (by rw [hs]; intro hh; cases hh)
        (by rw [hs]; intro hh; cases hh)]
      exact ih (d + 1) (fun f hf1 hf2 => hno f (by omega) (by omega))
    | deleted =>
      rw [getLoop_cons_other t key index d _ (by rw [hs]; intro hh; cases hh)
        (by rw [hs]; intro hh; cases hh)]
      exact ih (d + 1) (fun f hf1 hf2 => hno f (by omega) (by omega))

theorem getLoop_some_inv (t : HashMap.Table κ ν) (key : κ) (index : Nat) :
    ∀ (n d : Nat) (v : ν),
    HashMap.Table.getLoop t key index (List.range' d n) = some v →
    ∃ e, d ≤ e ∧ e < d + n ∧ (HashMap.probeAt t index e).state = .full ∧
      (HashMap.probeAt t index e).key = key ∧
      (HashMap.probeAt t index e).value = v ∧
      ∀ f, d ≤ f → f < e → (HashMap.probeAt t index f).state ≠ .empty ∧
        ¬ ((HashMap.probeAt t index f).state = .full ∧
           (HashMap.probeAt t index f).key = key) := by
  intro n
  induction n with
  | zero =>
    intro d v h
    exact Option.noConfusion h
  | succ n ih =>
    intro d v h
    rw [List.range'_succ d n 1] at h
    cases hs : (HashMap.probeAt t index d).state with
    | empty =>
      rw [getLoop_cons_empty t key index d _ hs] at h
      exact Option.noConfusion h
    | full =>
      by_cases hkey : (HashMap.probeAt t index d).key = key
      · rw [getLoop_cons_full_hit t key index d _ hs hkey] at h
        injection h with h1
        exact ⟨d, Nat.le_refl d, by omega, hs, hkey, h1, fun f hf1 hf2 => by omega⟩
      · rw [getLoop_cons_full_miss t key index d _ hs hkey] at h
        obtain ⟨e, he1, he2, he3, he4, he5, hepre⟩ := ih (d + 1) v h
        refine ⟨e, by omega, by omega, he3, he4, he5, ?_⟩
        intro f hf1 hf2
        rcases Nat.lt_or_ge f (d + 1) with hf | hf
        · have : f = d := by omega
          subst this
          exact ⟨(by rw [hs]; intro hh; cases hh), fun hc => hkey hc.2⟩
        · exact hepre f hf hf2
    | writing =>
      rw [getLoop_cons_other t key index d _ (by rw [hs]; intro hh; cases hh)
        (by rw [hs]; intro hh; cases hh)] at h
      obtain ⟨e, he1, he2, he3, he4, he5, hepre⟩ := ih (d + 1) v h
      refine ⟨e, by omega, by omega, he3, he4, he5, ?_⟩
      intro f hf1 hf2
      rcases Nat.lt_or_ge f (d + 1) with hf | hf
      · have : f = d := by omega
        subst this
        exact ⟨(by rw [hs]; intro hh; cases hh),
          fun hc => by rw [hs] at hc; cases hc.1⟩
      · exact hepre f hf hf2
    | deleted =>
      rw [getLoop_cons_other t key index d _ (by rw [hs]; intro hh; cases hh)
        (by rw [hs]; intro hh; cases hh)] at h
      obtain ⟨e, he1, he2, he3, he4, he5, hepre⟩ := ih (d + 1) v h
      refine ⟨e, by omega, by omega, he3, he4, he5, ?_⟩
      intro f hf1 hf2
      rcases Nat.lt_or_ge f (d + 1) with hf | hf
      · have : f = d := by omega
        subst this
        exact ⟨(by rw [hs]; intro hh; cases hh),
          fun hc => by rw [hs] at hc; cases hc.1⟩
      · exact hepre f hf hf2

theorem insertLoop_found (t : HashMap.Table κ ν) (key : κ) (value : ν)
    (index : Nat) : ∀ (n d e : Nat), d ≤ e → e < d + n →
    (HashMap.probeAt t index e).state = .empty →
    (∀ f, d ≤ f → f < e → (HashMap.probeAt t index f).state ≠ .empty ∧
      ¬ ((HashMap.probeAt t index f).state = .full ∧
         (HashMap.probeAt t index f).key = key)) →
    HashMap.Table.insertLoop t key value index (List.range' d n) =
      (true, { t with
        m_buffer := t.m_buffer.set (wrap t.m_capacity (index + e)) ⟨.full, key, value⟩,
        m_size := t.m_size + 1 }) := by
  intro n
  induction n with
  | zero =>
    intro d e h1 h2 _ _
    omega
  | succ n ih =>
    intro d e h1 h2 hemp hpre
    rw [List.range'_succ d n 1]
    by_cases hde : d = e
    · subst hde
      exact insertLoop_cons_empty t key value index d _ hemp
    · have hdlt : d < e := by omega
      have hp := hpre d (Nat.le_refl d) hdlt
      cases hs : (HashMap.probeAt t index d).state with
      | empty => exact absurd hs hp.1
      | full =>
        have hkne : ¬ (HashMap.probeAt t index d).key = key :=
          fun hk => hp.2 ⟨hs, hk⟩
        rw [insertLoop_cons_full_miss t key value index d _ hs hkne]
        exact ih (d + 1) e (by omega) (by omega) hemp
          (fun f hf1 hf2 => hpre f (by omega) hf2)
      | writing =>
        rw [insertLoop_cons_writing t key value index d _ hs]
        exact ih (d + 1) e (by omega) (by omega) hemp
          (fun f hf1 hf2 => hpre f (by omega) hf2)
      | deleted =>
        rw [insertLoop_cons_deleted t key value index d _ hs]
        exact ih (d + 1) e (by omega) (by omega) hemp
          (fun f hf1 hf2 => hpre f (by omega) hf2)

theorem insertLoop_dup (t : HashMap.Table κ ν) (key : κ) (value : ν)
    (index : Nat) : ∀ (n d e : Nat), d ≤ e → e < d + n →
    (HashMap.probeAt t index e).state = .full →
    (HashMap.probeAt t index e).key = key →
    (∀ f, d ≤ f → f < e → (HashMap.probeAt t index f).state ≠ .empty ∧
      ¬ ((HashMap.probeAt t index f).state = .full ∧
         (HashMap.probeAt t index f).key = key)) →
    HashMap.Table.insertLoop t key value index (List.range' d n) = (false, t) := by
  intro n
  induction n with
  | zero =>
    intro d e h1 h2 _ _ _
    omega
  | succ n ih =>
    intro d e h1 h2 hfull hkey hpre
    rw [List.range'_succ d n 1]
    by_cases hde : d = e
    · subst hde
      exact insertLoop_cons_full_hit t key value index d _ hfull hkey
    · have hdlt : d < e := by omega
      have hp := hpre d (Nat.le_refl d) hdlt
      cases hs : (HashMap.probeAt t index d).state with
      | empty => exact absurd hs hp.1
      | full =>
        have hkne : ¬ (HashMap.probeAt t index d).key = key :=
          fun hk => hp.2 ⟨hs, hk⟩
        rw [insertLoop_cons_full_miss t key value index d _ hs hkne]
        exact ih (d + 1) e (by omega) (by omega) hfull hkey
          (fun f hf1 hf2 => hpre f (by omega) hf2)
      | writing =>
        rw [insertLoop_cons_writing t key value index d _ hs]
        exact ih (d + 1) e (by omega) (by omega) hfull hkey
          (fun f hf1 hf2 => hpre f (by omega) hf2)
      | deleted =>
        rw [insertLoop_cons_deleted t key value index d _ hs]
        exact ih (d + 1) e (by omega) (by omega) hfull hkey
          (fun f hf1 hf2 => hpre f (by omega) hf2)

theorem insertLoop_true_inv (t : HashMap.Table κ ν) (key : κ) (value : ν)
    (index : Nat) : ∀ (n d : Nat) (t' : HashMap.Table κ ν),
    HashMap.Table.insertLoop t key value index (List.range' d n) = (true, t') →
    ∃ e, d ≤ e ∧ e < d + n ∧ (HashMap.probeAt t index e).state = .empty ∧
      (∀ f, d ≤ f → f < e → (HashMap.probeAt t index f).state ≠ .empty ∧
        ¬ ((HashMap.probeAt t index f).state = .full ∧
           (HashMap.probeAt t index f).key = key)) ∧
      t' = { t with
        m_buffer := t.m_buffer.set (wrap t.m_capacity (index + e)) ⟨.full, key, value⟩,
        m_size := t.m_size + 1 } := by
  intro n
  induction n with
  | zero =>
    intro d t' h
    simp only [HashMap.Table.insertLoop] at h
    injection h with h1 h2
    exact Bool.noConfusion h1
  | succ n ih =>
    intro d t' h
    rw [List.range'_succ d n 1] at h
    cases hs : (HashMap.probeAt t index d).state with
    | empty =>
      rw [insertLoop_cons_empty t key value index d _ hs] at h
      injection h with h1 h2
      exact ⟨d, Nat.le_refl d, by omega, hs, (fun f hf1 hf2 => by omega), h2.symm⟩
    | full =>
      by_cases hkey : (HashMap.probeAt t index d).key = key
      · rw [insertLoop_cons_full_hit t key value index d _ hs hkey] at h
        injection h with h1 h2
        exact Bool.noConfusion h1
      · rw [insertLoop_cons_full_miss t key value index d _ hs hkey] at h
        obtain ⟨e, he1, he2, he3, hepre, he5⟩ := ih (d + 1) t' h
        refine ⟨e, by omega, by omega, he3, ?_, he5⟩
        intro f hf1 hf2
        rcases Nat.lt_or_ge f (d + 1) with hf | hf
        · have : f = d := by omega
          subst this
          exact ⟨(by rw [hs]; intro hh; cases hh), fun hc => hkey hc.2⟩
        · exact hepre f hf hf2
    | writing =>
      rw [insertLoop_cons_writing t key value index d _ hs] at h
      obtain ⟨e, he1, he2, he3, hepre, he5⟩ := ih (d + 1) t' h
      refine ⟨e, by omega, by omega, he3, ?_, he5⟩
      intro f hf1 hf2
      rcases Nat.lt_or_ge f (d + 1) with hf | hf
      · have : f = d := by omega
        subst this
        exact ⟨(by rw [hs]; intro hh; cases hh),
          fun hc => by rw [hs] at hc; cases hc.1⟩
      · exact hepre f hf hf2
    | deleted =>
      rw [insertLoop_cons_deleted t key value index d _ hs] at h
      obtain ⟨e, he1, he2, he3, hepre, he5⟩ := ih (d + 1) t' h
      refine ⟨e, by omega, by omega, he3, ?_, he5⟩
      intro f hf1 hf2
      rcases Nat.lt_or_ge f (d + 1) with hf | hf
      · have : f = d := by omega
        subst this
        exact ⟨(by rw [hs]; intro hh; cases hh),
          fun hc => by rw [hs] at hc; cases hc.1⟩
      · exact hepre f hf hf2

theorem removeLoop_found (t : HashMap.Table κ ν) (key : κ)
    (index : Nat) : ∀ (n d e : Nat), d ≤ e → e < d + n →
    (HashMap.probeAt t index e).state = .full →
    (HashMap.probeAt t index e).key = key →
    (∀ f, d ≤ f → f < e → (HashMap.probeAt t index f).state ≠ .empty ∧
      ¬ ((HashMap.probeAt t index f).state = .full ∧
         (HashMap.probeAt t index f).key = key)) →
    HashMap.Table.removeLoop t key index (List.range' d n) =
      (true, { t with
        m_buffer := t.m_buffer.set (wrap t.m_capacity (index + e))
          { HashMap.probeAt t index e with state := .deleted },
        m_size := t.m_size - 1 }) := by
  intro n
  induction n with
  | zero =>
    intro d e h1 h2 _ _ _
    omega
  | succ n ih =>
    intro d e h1 h2 hfull hkey hpre
    rw [List.range'_succ d n 1]
    by_cases hde : d = e
    · subst hde
      exact removeLoop_cons_hit t key index d _ hfull hkey
    · have hdlt : d < e := by omega
      have hp := hpre d (Nat.le_refl d) hdlt
      have hne : ¬ (HashMap.probeAt t index d).state = .empty := hp.1
      rw [removeLoop_cons_skip t key index d _ hp.2 hne]
      exact ih (d + 1) e (by omega) (by omega) hfull hkey
        (fun f hf1 hf2 => hpre f (by omega) hf2)

theorem removeLoop_true_inv (t : HashMap.Table κ ν) (key : κ)
    (index : Nat) : ∀ (n d : Nat) (t' : HashMap.Table κ ν),
    HashMap.Table.removeLoop t key index (List.range' d n) = (true, t') →
    ∃ e, d ≤ e ∧ e < d + n ∧ (HashMap.probeAt t index e).state = .full ∧
      (HashMap.probeAt t index e).key = key ∧
      t' = { t with
        m_buffer := t.m_buffer.set (wrap t.m_capacity (index + e))
          { HashMap.probeAt t index e with state := .deleted },
        m_size := t.m_size - 1 } := by
  intro n
  induction n with
  | zero =>
    intro d t' h
    simp only [HashMap.Table.removeLoop] at h
    injection h with h1 h2
    exact Bool.noConfusion h1
  | succ n ih =>
    intro d t' h
    rw [List.range'_succ d n 1] at h
    by_cases hcond : (HashMap.probeAt t index d).state = .full ∧
        (HashMap.probeAt t index d).key = key
    · rw [removeLoop_cons_hit t key index d _ hcond.1 hcond.2] at h
      injection h with h1 h2
      exact ⟨d, Nat.le_refl d, by omega, hcond.1, hcond.2, h2.symm⟩
    · by_cases hemp : (HashMap.probeAt t index d).state = .empty
      · rw [removeLoop_cons_empty t key index d _ hemp] at h
        injection h with h1 h2
        exact Bool.noConfusion h1
      · rw [removeLoop_cons_skip t key index d _ hcond hemp] at h
        obtain ⟨e, he1, he2, he3, he4, he5⟩ := ih (d + 1) t' h
        exact ⟨e, by omega, by omega, he3, he4, he5⟩

theorem removeLoop_none (t : HashMap.Table κ ν) (key : κ) (index : Nat) :
    ∀ (n d : Nat),
    (∀ f, d ≤ f → f < d + n →
      ¬ ((HashMap.probeAt t index f).state = .full ∧
         (HashMap.probeAt t index f).key = key)) →
    HashMap.Table.removeLoop t key index (List.range' d n) = (false, t) := by
  intro n
  induction n with
  | zero =>
    intro d _
    rfl
  | succ n ih =>
    intro d hno
    rw [List.range'_succ d n 1]
    by_cases hemp : (HashMap.probeAt t index d).state = .empty
    · exact removeLoop_cons_empty t key index d _ hemp
    · rw [removeLoop_cons_skip t key index d _
        (hno d (Nat.le_refl d) (by omega)) hemp]
      exact ih (d + 1) (fun f hf1 hf2 => hno f (by omega) (by omega))

/-! ## Hash map: probe-index arithmetic -/

theorem wrap_lt_cap (ck cap i : Nat) (hcap : cap = 2 ^ ck) :
    wrap cap i < cap := by
  subst hcap
  rw [wrap_eq_mod]
  exact Nat.mod_lt _ (Nat.pos_pow_of_pos ck (by norm_num))

theorem probeDist_lt (cap index j : Nat) (hcap : 0 < cap) :
    probeDist cap index j < cap :=
  Nat.mod_lt _ hcap

theorem wrap_probeDist (ck cap index j : Nat) (hcap : cap = 2 ^ ck)
    (hidx : index < cap) (hj : j < cap) :
    wrap cap (index + probeDist cap index j) = j := by
  subst hcap
  rw [wrap_eq_mod]
  unfold probeDist
  rw [Nat.add_mod_mod, show index + (j + 2 ^ ck - index) = j + 2 ^ ck by omega,
    Nat.add_mod_right]
  exact Nat.mod_eq_of_lt hj

theorem probeDist_wrap (ck cap index d : Nat) (hcap : cap = 2 ^ ck)
    (hidx : index < cap) (hd : d < cap) :
    probeDist cap index (wrap cap (index + d)) = d := by
  subst hcap
  rw [wrap_eq_mod]
  unfold probeDist
  have hidx' : index ≤ 2 ^ ck := Nat.le_of_lt hidx
  rw [show (index + d) % 2 ^ ck + 2 ^ ck - index =
      (index + d) % 2 ^ ck + (2 ^ ck - index) by omega,
    Nat.mod_add_mod, show index + d + (2 ^ ck - index) = d + 2 ^ ck by omega,
    Nat.add_mod_right]
  exact Nat.mod_eq_of_lt hd

theorem wrap_probe_inj (ck cap index a b : Nat) (hcap : cap = 2 ^ ck)
    (ha : a < cap) (hb : b < cap)
    (h : wrap cap (index + a) = wrap cap (index + b)) : a = b := by
  have hcap0 : 0 < cap := by
    subst hcap; exact Nat.pos_pow_of_pos ck (by norm_num)
  rw [hcap, wrap_eq_mod, wrap_eq_mod, ← hcap] at h
  rcases Nat.le_total a b with hab | hab
  · have := eq_of_mod_eq_of_close hcap0 h (by omega) (by omega)
    omega
  · have := eq_of_mod_eq_of_close hcap0 h.symm (by omega) (by omega)
    omega

theorem hash_lt (ck : Nat) (hashFn : κ → Nat) (t : HashMap.Table κ ν) (key : κ)
    (hpow : t.m_capacity = 2 ^ ck) :
    HashMap.Table.hash hashFn t key < t.m_capacity :=
  wrap_lt_cap ck t.m_capacity (hashFn key) hpow

/-! ## Claim C6 -/

/-- Claim C6: insert/get round-trip on a table.  Inserting a key the table
does not contain (no Full cell holds it), with a free (Empty) slot
available, returns true, and a subsequent get of the key returns the
inserted value — including when the probe sequence passes over Deleted
(tombstoned) or Writing cells, which both insert and get skip without
terminating the search. -/
theorem C6_insert_get_roundtrip (hashFn : κ → Nat) (ck : Nat)
    (t : HashMap.Table κ ν) (key : κ) (value : ν)
    (hpow : t.m_capacity = 2 ^ ck)
    (hlen : t.m_buffer.length = t.m_capacity)
    (habs : ∀ j, j < t.m_capacity →
      ¬ ((HashMap.cellAt t j).state = .full ∧ (HashMap.cellAt t j).key = key))
    (hfree : ∃ j, j < t.m_capacity ∧ (HashMap.cellAt t j).state = .empty) :
    (HashMap.Table.insert hashFn t key value).1 = true ∧
    HashMap.Table.get hashFn (HashMap.Table.insert hashFn t key value).2 key =
      some value := by
  have hcap0 : 0 < t.m_capacity := by
    rw [hpow]; exact Nat.pos_pow_of_pos ck (by norm_num)
  have hidxlt : HashMap.Table.hash hashFn t key < t.m_capacity :=
    hash_lt ck hashFn t key hpow
  obtain ⟨j0, hj0, hj0emp⟩ := hfree
  -- some probe distance reaches an Empty cell
  have hdist_emp : (HashMap.probeAt t (HashMap.Table.hash hashFn t key)
      (probeDist t.m_capacity (HashMap.Table.hash hashFn t key) j0)).state
      = .empty := by
    show (HashMap.cellAt t (wrap t.m_capacity _)).state = .empty
    rw [wrap_probeDist ck t.m_capacity _ j0 hpow hidxlt hj0]
    exact hj0emp
  have hex : ∃ d, (HashMap.probeAt t (HashMap.Table.hash hashFn t key) d).state
      = .empty := ⟨_, hdist_emp⟩
  have heemp := Nat.find_spec hex
  have hmin : ∀ f, f < Nat.find hex →
      ¬ (HashMap.probeAt t (HashMap.Table.hash hashFn t key) f).state = .empty :=
    fun f hf => Nat.find_min hex hf
  have helt : Nat.find hex < t.m_capacity := by
    have h1 : Nat.find hex ≤
        probeDist t.m_capacity (HashMap.Table.hash hashFn t key) j0 :=
      Nat.find_min' hex hdist_emp
    have h2 := probeDist_lt t.m_capacity (HashMap.Table.hash hashFn t key) j0 hcap0
    omega
  have hpre : ∀ f, 0 ≤ f → f < Nat.find hex →
      (HashMap.probeAt t (HashMap.Table.hash hashFn t key) f).state ≠ .empty ∧
      ¬ ((HashMap.probeAt t (HashMap.Table.hash hashFn t key) f).state = .full ∧
         (HashMap.probeAt t (HashMap.Table.hash hashFn t key) f).key = key) := by
    intro f _ hf
    refine ⟨hmin f hf, ?_⟩
    exact habs (wrap t.m_capacity (HashMap.Table.hash hashFn t key + f))
      (wrap_lt_cap ck t.m_capacity _ hpow)
  have hins : HashMap.Table.insert hashFn t key value =
      (true, { t with
        m_buffer := t.m_buffer.set
          (wrap t.m_capacity (HashMap.Table.hash hashFn t key + Nat.find hex))
          ⟨.full, key, value⟩,
        m_size := t.m_size + 1 }) := by
    show HashMap.Table.insertLoop t key value _ (List.range t.m_capacity) = _
    rw [List.range_eq_range']
    exact insertLoop_found t key value _ t.m_capacity 0 (Nat.find hex)
      (Nat.zero_le _) (by omega) heemp hpre
  rw [hins]
  refine ⟨rfl, ?_⟩
  -- the get probes the same sequence and finds the new Full cell
  show HashMap.Table.getLoop
    ({ t with
      m_buffer := t.m_buffer.set
        (wrap t.m_capacity (HashMap.Table.hash hashFn t key + Nat.find hex))
        ⟨.full, key, value⟩,
      m_size := t.m_size + 1 }) key (HashMap.Table.hash hashFn t key)
    (List.range t.m_capacity) = some value
  have hjstar : wrap t.m_capacity (HashMap.Table.hash hashFn t key + Nat.find hex)
      < t.m_buffer.length := by
    rw [hlen]; exact wrap_lt_cap ck t.m_capacity _ hpow
  have hcellnew : HashMap.probeAt
      ({ t with
        m_buffer := t.m_buffer.set
          (wrap t.m_capacity (HashMap.Table.hash hashFn t key + Nat.find hex))
          ⟨.full, key, value⟩,
        m_size := t.m_size + 1 }) (HashMap.Table.hash hashFn t key)
      (Nat.find hex) = ⟨.full, key, value⟩ := by
    show (t.m_buffer.set _ _).getD _ HashMap.dcell = _
    exact getD_set_self _ hjstar _ _
  have hcellold : ∀ f, f < Nat.find hex →
      HashMap.probeAt
        ({ t with
          m_buffer := t.m_buffer.set
            (wrap t.m_capacity (HashMap.Table.hash hashFn t key + Nat.find hex))
            ⟨.full, key, value⟩,
          m_size := t.m_size + 1 }) (HashMap.Table.hash hashFn t key) f =
      HashMap.probeAt t (HashMap.Table.hash hashFn t key) f := by
    intro f hf
    show (t.m_buffer.set _ _).getD _ HashMap.dcell = t.m_buffer.getD _ HashMap.dcell
    apply getD_set_ne
    intro hcontra
    have := wrap_probe_inj ck t.m_capacity (HashMap.Table.hash hashFn t key)
      (Nat.find hex) f hpow helt (by omega) hcontra
    omega
  have hget := getLoop_found
    ({ t with
      m_buffer := t.m_buffer.set
        (wrap t.m_capacity (HashMap.Table.hash hashFn t key + Nat.find hex))
        ⟨.full, key, value⟩,
      m_size := t.m_size + 1 }) key (HashMap.Table.hash hashFn t key)
    t.m_capacity 0 (Nat.find hex) (Nat.zero_le _) (by omega)
    (by rw [hcellnew]) (by rw [hcellnew])
    (by
      intro f hf1 hf2
      rw [hcellold f hf2]
      exact hpre f hf1 hf2)
  rw [List.range_eq_range']
  rw [hget, hcellnew]

/-- Witness for C6: a capacity-4 table whose probe path for key 0 starts
with a Deleted tombstone; the insert claims the next cell and the get skips
the tombstone. -/
theorem C6_insert_get_roundtrip_witness :
    ((⟨4, [⟨.deleted, 9, 9⟩, HashMap.dcell, HashMap.dcell, HashMap.dcell], 0⟩ :
      HashMap.Table Nat Nat).m_capacity = 2 ^ 2) ∧
    ((⟨4, [⟨.deleted, 9, 9⟩, HashMap.dcell, HashMap.dcell, HashMap.dcell], 0⟩ :
      HashMap.Table Nat Nat).m_buffer.length = 4) ∧
    ((HashMap.Table.insert (fun k => k)
      (⟨4, [⟨.deleted, 9, 9⟩, HashMap.dcell, HashMap.dcell, HashMap.dcell], 0⟩ :
        HashMap.Table Nat Nat) 0 42).1 = true ∧
     HashMap.Table.get (fun k => k)
      (HashMap.Table.insert (fun k => k)
        (⟨4, [⟨.deleted, 9, 9⟩, HashMap.dcell, HashMap.dcell, HashMap.dcell], 0⟩ :
          HashMap.Table Nat Nat) 0 42).2 0 = some 42) :=
  ⟨by decide, by decide,
    C6_insert_get_roundtrip (fun k => k) 2
      (⟨4, [⟨.deleted, 9, 9⟩, HashMap.dcell, HashMap.dcell, HashMap.dcell], 0⟩ :
        HashMap.Table Nat Nat) 0 42 (by decide) (by decide)
      (by decide) ⟨1, by decide, by decide⟩⟩

/-! ## Claim C7 -/

/-- Claim C7: remove(k) on a hash map containing k (in a well-formed,
single-threaded reachable table state) returns true and a subsequent get(k)
returns absent; remove(k) on a map not containing k returns false and
leaves the map unchanged. -/
theorem C7_remove_semantics (hashFn : κ → Nat) (m : HashMap κ ν) (key : κ)
    (hwf : HashMap.TableWf hashFn m.m_table) :
    (∀ v, HashMap.get hashFn m key = some v →
      (HashMap.remove hashFn m key).1 = true ∧
      HashMap.get hashFn (HashMap.remove hashFn m key).2 key = none) ∧
    ((∀ j, j < m.m_table.m_capacity →
        ¬ ((HashMap.cellAt m.m_table j).state = .full ∧
           (HashMap.cellAt m.m_table j).key = key)) →
      HashMap.remove hashFn m key = (false, m)) := by
  obtain ⟨⟨kk, hpow⟩, hlen, hsize, hnw, huniq, hchain⟩ := hwf
  have hcap0 : 0 < m.m_table.m_capacity := by
    rw [hpow]; exact Nat.pos_pow_of_pos kk (by norm_num)
  have hidxlt : HashMap.Table.hash hashFn m.m_table key < m.m_table.m_capacity :=
    hash_lt kk hashFn m.m_table key hpow
  constructor
  · intro v hget
    have hget' : HashMap.Table.getLoop m.m_table key
        (HashMap.Table.hash hashFn m.m_table key)
        (List.range' 0 m.m_table.m_capacity) = some v := by
      rw [← List.range_eq_range']
      exact hget
    obtain ⟨e, he0, helt, hefull, hekey, heval, hepre⟩ :=
      getLoop_some_inv m.m_table key _ m.m_table.m_capacity 0 v hget'
    simp only [Nat.zero_add] at helt
    have hrem : HashMap.Table.remove hashFn m.m_table key =
        (true, { m.m_table with
          m_buffer := m.m_table.m_buffer.set
            (wrap m.m_table.m_capacity
              (HashMap.Table.hash hashFn m.m_table key + e))
            { HashMap.probeAt m.m_table
                (HashMap.Table.hash hashFn m.m_table key) e with
              state := .deleted },
          m_size := m.m_table.m_size - 1 }) := by
      show HashMap.Table.removeLoop m.m_table key _
        (List.range m.m_table.m_capacity) = _
      rw [List.range_eq_range']
      exact removeLoop_found m.m_table key _ m.m_table.m_capacity 0 e
        (Nat.zero_le _) (by omega) hefull hekey hepre
    have hr1 : (HashMap.remove hashFn m key).1 = true := by
      show (HashMap.Table.remove hashFn m.m_table key).1 = true
      rw [hrem]
    refine ⟨hr1, ?_⟩
    -- after the removal no Full cell holds the key
    show HashMap.Table.get hashFn (HashMap.Table.remove hashFn m.m_table key).2
      key = none
    rw [hrem]
    show HashMap.Table.getLoop
      ({ m.m_table with
        m_buffer := m.m_table.m_buffer.set
          (wrap m.m_table.m_capacity
            (HashMap.Table.hash hashFn m.m_table key + e))
          { HashMap.probeAt m.m_table
              (HashMap.Table.hash hashFn m.m_table key) e with
            state := .deleted },
        m_size := m.m_table.m_size - 1 }) key
      (HashMap.Table.hash hashFn m.m_table key)
      (List.range m.m_table.m_capacity) = none
    rw [List.range_eq_range']
    apply getLoop_none
    intro f _ hf2
    simp only [Nat.zero_add] at hf2
    have hje : wrap m.m_table.m_capacity
        (HashMap.Table.hash hashFn m.m_table key + e) < m.m_table.m_buffer.length := by
      rw [hlen]; exact wrap_lt_cap kk _ _ hpow
    by_cases hfe : f = e
    · subst hfe
      have : HashMap.probeAt
          ({ m.m_table with
            m_buffer := m.m_table.m_buffer.set
              (wrap m.m_table.m_capacity
                (HashMap.Table.hash hashFn m.m_table key + f))
              { HashMap.probeAt m.m_table
                  (HashMap.Table.hash hashFn m.m_table key) f with
                state := .deleted },
            m_size := m.m_table.m_size - 1 })
          (HashMap.Table.hash hashFn m.m_table key) f =
          { HashMap.probeAt m.m_table
              (HashMap.Table.hash hashFn m.m_table key) f with
            state := .deleted } := by
        show (m.m_table.m_buffer.set _ _).getD _ HashMap.dcell = _
        exact getD_set_self _ hje _ _
      rw [this]
      intro hc
      exact CellState.noConfusion hc.1
    · have hunch : HashMap.probeAt
          ({ m.m_table with
            m_buffer := m.m_table.m_buffer.set
              (wrap m.m_table.m_capacity
                (HashMap.Table.hash hashFn m.m_table key + e))
              { HashMap.probeAt m.m_table
                  (HashMap.Table.hash hashFn m.m_table key) e with
                state := .deleted },
            m_size := m.m_table.m_size - 1 })
          (HashMap.Table.hash hashFn m.m_table key) f =
          HashMap.probeAt m.m_table
            (HashMap.Table.hash hashFn m.m_table key) f := by
        show (m.m_table.m_buffer.set _ _).getD _ HashMap.dcell =
          m.m_table.m_buffer.getD _ HashMap.dcell
        apply getD_set_ne
        intro hcontra
        have hcontra2 : wrap m.m_table.m_capacity
            (HashMap.Table.hash hashFn m.m_table key + e) =
            wrap m.m_table.m_capacity
              (HashMap.Table.hash hashFn m.m_table key + f) := hcontra
        exact hfe (wrap_probe_inj kk m.m_table.m_capacity
          (HashMap.Table.hash hashFn m.m_table key) f e hpow hf2 helt
          hcontra2.symm)
      rw [hunch]
      intro hc
      -- a second Full cell with the key would contradict per-key uniqueness
      apply hfe
      have hjf : wrap m.m_table.m_capacity
          (HashMap.Table.hash hashFn m.m_table key + f) < m.m_table.m_capacity :=
        wrap_lt_cap kk _ _ hpow
      have hje' : wrap m.m_table.m_capacity
          (HashMap.Table.hash hashFn m.m_table key + e) < m.m_table.m_capacity :=
        wrap_lt_cap kk _ _ hpow
      have := huniq _ hjf _ hje' hc.1 hefull (hc.2.trans hekey.symm)
      exact wrap_probe_inj kk m.m_table.m_capacity
        (HashMap.Table.hash hashFn m.m_table key) f e hpow hf2 helt this
  · intro habs
    have hremnone : HashMap.Table.remove hashFn m.m_table key =
        (false, m.m_table) := by
      show HashMap.Table.removeLoop m.m_table key _
        (List.range m.m_table.m_capacity) = _
      rw [List.range_eq_range']
      apply removeLoop_none
      intro f _ hf2
      exact habs (wrap m.m_table.m_capacity
        (HashMap.Table.hash hashFn m.m_table key + f)) (wrap_lt_cap kk _ _ hpow)
    show ((HashMap.Table.remove hashFn m.m_table key).1,
      (⟨(HashMap.Table.remove hashFn m.m_table key).2⟩ : HashMap κ ν)) = (false, m)
    rw [hremnone]

/-- Witness for C7: a capacity-4 well-formed map holding key 1; removing
key 1 succeeds and the key becomes absent; removing the absent key 2
returns false and leaves the map unchanged. -/
theorem C7_remove_semantics_witness :
    ((HashMap.remove (fun k => k)
        (⟨⟨4, [HashMap.dcell, ⟨.full, 1, 10⟩, HashMap.dcell, HashMap.dcell], 1⟩⟩ :
          HashMap Nat Nat) 1).1 = true ∧
      HashMap.get (fun k => k)
        (HashMap.remove (fun k => k)
          (⟨⟨4, [HashMap.dcell, ⟨.full, 1, 10⟩, HashMap.dcell, HashMap.dcell], 1⟩⟩ :
            HashMap Nat Nat) 1).2 1 = none) ∧
    HashMap.remove (fun k => k)
      (⟨⟨4, [HashMap.dcell, ⟨.full, 1, 10⟩, HashMap.dcell, HashMap.dcell], 1⟩⟩ :
        HashMap Nat Nat) 2 =
      (false, ⟨⟨4, [HashMap.dcell, ⟨.full, 1, 10⟩, HashMap.dcell, HashMap.dcell], 1⟩⟩) := by
  have hwf : HashMap.TableWf (fun k => k)
      ((⟨⟨4, [HashMap.dcell, ⟨.full, 1, 10⟩, HashMap.dcell, HashMap.dcell], 1⟩⟩ :
        HashMap Nat Nat)).m_table :=
    ⟨⟨2, rfl⟩, by decide, by decide, by decide, by decide, by decide⟩
  exact ⟨(C7_remove_semantics (fun k => k)
      (⟨⟨4, [HashMap.dcell, ⟨.full, 1, 10⟩, HashMap.dcell, HashMap.dcell], 1⟩⟩ :
        HashMap Nat Nat) 1 hwf).1 10 (by decide),
    (C7_remove_semantics (fun k => k)
      (⟨⟨4, [HashMap.dcell, ⟨.full, 1, 10⟩, HashMap.dcell, HashMap.dcell], 1⟩⟩ :
        HashMap Nat Nat) 2 hwf).2 (by decide)⟩

/-! ## Claim C10 -/

/-- Claim C10: within a single Table, a cell that enters the Deleted state
never changes state again — insert claims only Empty cells and remove only
transitions Full cells to Deleted — so tombstones are never reclaimed within
a Table generation; consequently (concrete scenario, capacity 2 with
identity hashing) after insert 0, insert 1, remove 0, remove 1 every cell is
Deleted with size() = 0, and an insert of the fresh key 2 finds no claimable
cell and fails. -/
theorem C10_tombstones_permanent :
    (∀ (hashFn : κ → Nat) (t : HashMap.Table κ ν) (key : κ) (value : ν) (j : Nat),
      (HashMap.cellAt t j).state = .deleted →
      (HashMap.cellAt (HashMap.Table.insert hashFn t key value).2 j).state
        = .deleted) ∧
    (∀ (hashFn : κ → Nat) (t : HashMap.Table κ ν) (key : κ) (j : Nat),
      (HashMap.cellAt t j).state = .deleted →
      (HashMap.cellAt (HashMap.Table.remove hashFn t key).2 j).state
        = .deleted) ∧
    (((HashMap.Table.remove (fun k => k)
        ((HashMap.Table.remove (fun k => k)
          ((HashMap.Table.insert (fun k => k)
            ((HashMap.Table.insert (fun k => k)
              (HashMap.Table.init Nat Nat 2) 0 50).2) 1 51).2) 0).2) 1).2).m_size = 0 ∧
      (∀ j, j < 2 → (HashMap.cellAt ((HashMap.Table.remove (fun k => k)
        ((HashMap.Table.remove (fun k => k)
          ((HashMap.Table.insert (fun k => k)
            ((HashMap.Table.insert (fun k => k)
              (HashMap.Table.init Nat Nat 2) 0 50).2) 1 51).2) 0).2) 1).2) j).state = .deleted) ∧
      HashMap.Table.insert (fun k => k) ((HashMap.Table.remove (fun k => k)
        ((HashMap.Table.remove (fun k => k)
          ((HashMap.Table.insert (fun k => k)
            ((HashMap.Table.insert (fun k => k)
              (HashMap.Table.init Nat Nat 2) 0 50).2) 1 51).2) 0).2) 1).2) 2 99 = (false, (HashMap.Table.remove (fun k => k)
        ((HashMap.Table.remove (fun k => k)
          ((HashMap.Table.insert (fun k => k)
            ((HashMap.Table.insert (fun k => k)
              (HashMap.Table.init Nat Nat 2) 0 50).2) 1 51).2) 0).2) 1).2)) := by
  refine ⟨?_, ?_, by decide, by decide, by decide⟩
  · intro hashFn t key value j hdel
    rcases hres : HashMap.Table.insert hashFn t key value with ⟨b, t'⟩
    cases b
    · have ht' : t' = t :=
        insertLoop_false_eq t key value (HashMap.Table.hash hashFn t key)
          (List.range t.m_capacity) t' hres
      rw [ht']
      exact hdel
    · have hloop : HashMap.Table.insertLoop t key value
          (HashMap.Table.hash hashFn t key)
          (List.range' 0 t.m_capacity) = (true, t') := by
        rw [← List.range_eq_range']
        exact hres
      obtain ⟨e, -, -, hemp, -, ht'⟩ :=
        insertLoop_true_inv t key value _ t.m_capacity 0 t' hloop
      subst ht'
      by_cases hj : wrap t.m_capacity (HashMap.Table.hash hashFn t key + e) = j
      · exfalso
        have hdel' : (HashMap.cellAt t
            (wrap t.m_capacity (HashMap.Table.hash hashFn t key + e))).state
            = .deleted := by rw [hj]; exact hdel
        have hemp' : (HashMap.cellAt t
            (wrap t.m_capacity (HashMap.Table.hash hashFn t key + e))).state
            = .empty := hemp
        rw [hdel'] at hemp'
        exact CellState.noConfusion hemp'
      · show ((t.m_buffer.set _ _).getD j HashMap.dcell).state = .deleted
        rw [getD_set_ne _ hj _ _]
        exact hdel
  · intro hashFn t key j hdel
    rcases hres : HashMap.Table.remove hashFn t key with ⟨b, t'⟩
    cases b
    · have ht' : t' = t :=
        removeLoop_false_eq t key (HashMap.Table.hash hashFn t key)
          (List.range t.m_capacity) t' hres
      rw [ht']
      exact hdel
    · have hloop : HashMap.Table.removeLoop t key
          (HashMap.Table.hash hashFn t key)
          (List.range' 0 t.m_capacity) = (true, t') := by
        rw [← List.range_eq_range']
        exact hres
      obtain ⟨e, -, -, hfull, -, ht'⟩ :=
        removeLoop_true_inv t key _ t.m_capacity 0 t' hloop
      subst ht'
      by_cases hj : wrap t.m_capacity (HashMap.Table.hash hashFn t key + e) = j
      · exfalso
        have hdel' : (HashMap.cellAt t
            (wrap t.m_capacity (HashMap.Table.hash hashFn t key + e))).state
            = .deleted := by rw [hj]; exact hdel
        have hfull' : (HashMap.cellAt t
            (wrap t.m_capacity (HashMap.Table.hash hashFn t key + e))).state
            = .full := hfull
        rw [hdel'] at hfull'
        exact CellState.noConfusion hfull'
      · show ((t.m_buffer.set _ _).getD j HashMap.dcell).state = .deleted
        rw [getD_set_ne _ hj _ _]
        exact hdel

/-- Witness for C10's two persistence statements, at a concrete table whose
cell 0 is a tombstone. -/
theorem C10_tombstones_permanent_witness :
    ((HashMap.cellAt (⟨2, [⟨.deleted, 5, 5⟩, HashMap.dcell], 0⟩ :
        HashMap.Table Nat Nat) 0).state = .deleted) ∧
    ((HashMap.cellAt (HashMap.Table.insert (fun k => k)
        (⟨2, [⟨.deleted, 5, 5⟩, HashMap.dcell], 0⟩ : HashMap.Table Nat Nat)
        1 9).2 0).state = .deleted) ∧
    ((HashMap.cellAt (HashMap.Table.remove (fun k => k)
        (⟨2, [⟨.deleted, 5, 5⟩, HashMap.dcell], 0⟩ : HashMap.Table Nat Nat)
        1).2 0).state = .deleted) :=
  ⟨by decide,
    C10_tombstones_permanent.1 (fun k => k)
      (⟨2, [⟨.deleted, 5, 5⟩, HashMap.dcell], 0⟩ : HashMap.Table Nat Nat)
      1 9 0 (by decide),
    C10_tombstones_permanent.2.1 (fun k => k)
      (⟨2, [⟨.deleted, 5, 5⟩, HashMap.dcell], 0⟩ : HashMap.Table Nat Nat)
      1 0 (by decide)⟩

/-! ## Claims C1 and C2 (code bugs in HashMap::insert) -/

/-- Claim C1 (code bug): after a successful insert(1, 10) on a fresh
capacity-8 map, the inner Table::insert of the duplicate key returns false
and leaves the table untouched — but the public HashMap::insert never
returns false: its retry loop re-runs Table::insert against the same table
forever (the occupancy 1 never exceeds capacity/2 = 4, so it does not even
resize).  The loop is modelled with fuel; no amount of fuel makes the call
return. -/
theorem C1_duplicate_insert_diverges :
    HashMap.insertFuel (fun k => k) 1 (HashMap.init Nat Nat 8) 1 10 =
      some (true, ⟨⟨8, [HashMap.dcell, ⟨.full, 1, 10⟩, HashMap.dcell,
        HashMap.dcell, HashMap.dcell, HashMap.dcell, HashMap.dcell,
        HashMap.dcell], 1⟩⟩) ∧
    HashMap.get (fun k => k)
      (⟨⟨8, [HashMap.dcell, ⟨.full, 1, 10⟩, HashMap.dcell, HashMap.dcell,
        HashMap.dcell, HashMap.dcell, HashMap.dcell, HashMap.dcell], 1⟩⟩ :
        HashMap Nat Nat) 1 = some 10 ∧
    HashMap.Table.insert (fun k => k)
      (⟨8, [HashMap.dcell, ⟨.full, 1, 10⟩, HashMap.dcell, HashMap.dcell,
        HashMap.dcell, HashMap.dcell, HashMap.dcell, HashMap.dcell], 1⟩ :
        HashMap.Table Nat Nat) 1 20 =
      (false, ⟨8, [HashMap.dcell, ⟨.full, 1, 10⟩, HashMap.dcell, HashMap.dcell,
        HashMap.dcell, HashMap.dcell, HashMap.dcell, HashMap.dcell], 1⟩) ∧
    ∀ fuel, HashMap.insertFuel (fun k => k) fuel
      (⟨⟨8, [HashMap.dcell, ⟨.full, 1, 10⟩, HashMap.dcell, HashMap.dcell,
        HashMap.dcell, HashMap.dcell, HashMap.dcell, HashMap.dcell], 1⟩⟩ :
        HashMap Nat Nat) 1 20 = none := by
  refine ⟨by decide, by decide, by decide, ?_⟩
  intro fuel
  induction fuel with
  | zero => rfl
  | succ n ih =>
    have hins : HashMap.Table.insert (fun k => k)
        ((⟨⟨8, [HashMap.dcell, ⟨.full, 1, 10⟩, HashMap.dcell, HashMap.dcell,
          HashMap.dcell, HashMap.dcell, HashMap.dcell, HashMap.dcell], 1⟩⟩ :
          HashMap Nat Nat)).m_table 1 20 =
        (false, ⟨8, [HashMap.dcell, ⟨.full, 1, 10⟩, HashMap.dcell, HashMap.dcell,
          HashMap.dcell, HashMap.dcell, HashMap.dcell, HashMap.dcell], 1⟩) := by
      decide
    have hstep : HashMap.insertFuel (fun k => k) (n + 1)
        (⟨⟨8, [HashMap.dcell, ⟨.full, 1, 10⟩, HashMap.dcell, HashMap.dcell,
          HashMap.dcell, HashMap.dcell, HashMap.dcell, HashMap.dcell], 1⟩⟩ :
          HashMap Nat Nat) 1 20 =
        HashMap.insertFuel (fun k => k) n
        (⟨⟨8, [HashMap.dcell, ⟨.full, 1, 10⟩, HashMap.dcell, HashMap.dcell,
          HashMap.dcell, HashMap.dcell, HashMap.dcell, HashMap.dcell], 1⟩⟩ :
          HashMap Nat Nat) 1 20 := by
      simp only [HashMap.insertFuel, hins]
      norm_num
    rw [hstep]
    exact ih

/-- Claim C2 (code bug): five distinct inserts into a fresh capacity-8 map
(identity hash, keys 0..4) all succeed on the first table attempt, so the
resize branch of HashMap::insert is never reached: capacity() remains 8
(not the claimed 16) even though the occupancy 5 exceeds capacity/2 = 4;
the five keys are all retrievable. -/
theorem C2_no_growth_at_half_load :
    ((List.range 5).foldlM (fun m k =>
        (HashMap.insertFuel (fun j => j) 1 m k (100 + k)).map Prod.snd)
      (HashMap.init Nat Nat 8)).map HashMap.capacity = some 8 ∧
    ((List.range 5).foldlM (fun m k =>
        (HashMap.insertFuel (fun j => j) 1 m k (100 + k)).map Prod.snd)
      (HashMap.init Nat Nat 8)).map HashMap.size = some 5 ∧
    ((List.range 5).foldlM (fun m k =>
        (HashMap.insertFuel (fun j => j) 1 m k (100 + k)).map Prod.snd)
      (HashMap.init Nat Nat 8)).map
      (fun m => (List.range 5).map (fun k => HashMap.get (fun j => j) m k)) =
      some ((List.range 5).map (fun k => some (100 + k))) := by
  refine ⟨by decide, by decide, by decide⟩

/-! ## Hash map: preservation of well-formedness -/

theorem TableWf_init (hashFn : κ → Nat) (kk cap : Nat) (hcap : cap = 2 ^ kk) :
    HashMap.TableWf hashFn (HashMap.Table.init κ ν cap) := by
  have hcell : ∀ j, j < cap →
      HashMap.cellAt (HashMap.Table.init κ ν cap) j = HashMap.dcell := by
    intro j hj
    show (List.replicate cap HashMap.dcell).getD j HashMap.dcell = _
    exact getD_replicate hj _ _
  refine ⟨⟨kk, hcap⟩, by simp [HashMap.Table.init], ?_, ?_, ?_, ?_⟩
  · show 0 = HashMap.countFull (HashMap.Table.init κ ν cap)
    unfold HashMap.countFull
    symm
    rw [List.countP_eq_zero]
    intro a ha
    have : a = HashMap.dcell := (List.eq_of_mem_replicate ha)
    subst this
    simp [HashMap.dcell]
  · intro j hj
    rw [hcell j hj]
    intro hh
    exact CellState.noConfusion hh
  · intro j1 hj1 j2 hj2 hf1 hf2 _
    rw [hcell j1 hj1] at hf1
    exact absurd hf1 (by intro hh; exact CellState.noConfusion hh)
  · intro j hj hfull
    rw [hcell j hj] at hfull
    exact absurd hfull (by intro hh; exact CellState.noConfusion hh)

theorem insert_capacity (hashFn : κ → Nat) (t : HashMap.Table κ ν)
    (key : κ) (value : ν) :
    (HashMap.Table.insert hashFn t key value).2.m_capacity = t.m_capacity := by
  cases hb : (HashMap.Table.insert hashFn t key value).1
  · have heq : HashMap.Table.insert hashFn t key value =
        (false, (HashMap.Table.insert hashFn t key value).2) := by
      rw [← hb]
    have ht' := insertLoop_false_eq t key value
      (HashMap.Table.hash hashFn t key) (List.range t.m_capacity) _ heq
    rw [ht']
  · have heq : HashMap.Table.insert hashFn t key value =
        (true, (HashMap.Table.insert hashFn t key value).2) := by
      rw [← hb]
    have hloop : HashMap.Table.insertLoop t key value
        (HashMap.Table.hash hashFn t key) (List.range' 0 t.m_capacity) =
        (true, (HashMap.Table.insert hashFn t key value).2) := by
      rw [← List.range_eq_range']
      exact heq
    obtain ⟨e, -, -, -, -, ht'⟩ :=
      insertLoop_true_inv t key value _ t.m_capacity 0 _ hloop
    rw [ht']

theorem TableWf_insert (hashFn : κ → Nat) (t : HashMap.Table κ ν)
    (key : κ) (value : ν) (hwf : HashMap.TableWf hashFn t) :
    HashMap.TableWf hashFn (HashMap.Table.insert hashFn t key value).2 := by
  obtain ⟨⟨kk, hpow⟩, hlen, hsize, hnw, huniq, hchain⟩ := hwf
  have hcap0 : 0 < t.m_capacity := by
    rw [hpow]; exact Nat.pos_pow_of_pos kk (by norm_num)
  have hidxlt : HashMap.Table.hash hashFn t key < t.m_capacity :=
    hash_lt kk hashFn t key hpow
  cases hb : (HashMap.Table.insert hashFn t key value).1
  · have heq : HashMap.Table.insert hashFn t key value =
        (false, (HashMap.Table.insert hashFn t key value).2) := by
      rw [← hb]
    have ht' := insertLoop_false_eq t key value
      (HashMap.Table.hash hashFn t key) (List.range t.m_capacity) _ heq
    rw [ht']
    exact ⟨⟨kk, hpow⟩, hlen, hsize, hnw, huniq, hchain⟩
  · have heq : HashMap.Table.insert hashFn t key value =
        (true, (HashMap.Table.insert hashFn t key value).2) := by
      rw [← hb]
    have hloop : HashMap.Table.insertLoop t key value
        (HashMap.Table.hash hashFn t key) (List.range' 0 t.m_capacity) =
        (true, (HashMap.Table.insert hashFn t key value).2) := by
      rw [← List.range_eq_range']
      exact heq
    obtain ⟨e, -, helt, hemp, hpre, ht'⟩ :=
      insertLoop_true_inv t key value _ t.m_capacity 0 _ hloop
    simp only [Nat.zero_add] at helt
    rw [ht']
    have hjs : wrap t.m_capacity (HashMap.Table.hash hashFn t key + e)
        < t.m_capacity := wrap_lt_cap kk _ _ hpow
    have hjslen : wrap t.m_capacity (HashMap.Table.hash hashFn t key + e)
        < t.m_buffer.length := by rw [hlen]; exact hjs
    have hcellS : HashMap.cellAt
        ({ t with
          m_buffer := t.m_buffer.set
            (wrap t.m_capacity (HashMap.Table.hash hashFn t key + e))
            ⟨.full, key, value⟩,
          m_size := t.m_size + 1 })
        (wrap t.m_capacity (HashMap.Table.hash hashFn t key + e)) =
        ⟨.full, key, value⟩ := by
      show (t.m_buffer.set _ _).getD _ HashMap.dcell = _
      exact getD_set_self _ hjslen _ _
    have hcellO : ∀ x, x ≠ wrap t.m_capacity (HashMap.Table.hash hashFn t key + e) →
        HashMap.cellAt
          ({ t with
            m_buffer := t.m_buffer.set
              (wrap t.m_capacity (HashMap.Table.hash hashFn t key + e))
              ⟨.full, key, value⟩,
            m_size := t.m_size + 1 }) x = HashMap.cellAt t x := by
      intro x hx
      show (t.m_buffer.set _ _).getD _ HashMap.dcell = t.m_buffer.getD _ HashMap.dcell
      exact getD_set_ne _ (fun hh => hx hh.symm) _ _
    -- no full cell of `t` other than the new one can hold the inserted key
    have hcore : ∀ j2, j2 < t.m_capacity →
        j2 ≠ wrap t.m_capacity (HashMap.Table.hash hashFn t key + e) →
        (HashMap.cellAt t j2).state = .full →
        (HashMap.cellAt t j2).key = key → False := by
      intro j2 hj2 hj2ne hf2 hk2
      have hd2lt : probeDist t.m_capacity (HashMap.Table.hash hashFn t key) j2
          < t.m_capacity := probeDist_lt _ _ _ hcap0
      have hw2 : wrap t.m_capacity (HashMap.Table.hash hashFn t key +
          probeDist t.m_capacity (HashMap.Table.hash hashFn t key) j2) = j2 :=
        wrap_probeDist kk _ _ j2 hpow hidxlt hj2
      rcases Nat.lt_trichotomy
        (probeDist t.m_capacity (HashMap.Table.hash hashFn t key) j2) e with hc | hc | hc
      · -- the key would have been found before the claimed empty cell
        have hp := hpre _ (Nat.zero_le _) hc
        apply hp.2
        constructor
        · show (HashMap.cellAt t (wrap t.m_capacity _)).state = .full
          rw [hw2]
          exact hf2
        · show (HashMap.cellAt t (wrap t.m_capacity _)).key = key
          rw [hw2]
          exact hk2
      · exact hj2ne (by rw [← hw2, hc])
      · -- the existing cell's probe chain forbids the empty cell before it
        have hch := hchain j2 hj2 hf2 e
        rw [hk2] at hch
        exact (hch hc) hemp
    refine ⟨⟨kk, hpow⟩, ?_, ?_, ?_, ?_, ?_⟩
    · show (t.m_buffer.set _ _).length = t.m_capacity
      rw [List.length_set]
      exact hlen
    · show t.m_size + 1 = HashMap.countFull _
      unfold HashMap.countFull
      rw [countP_set_incr _ t.m_buffer HashMap.dcell _ hjslen
        (by
          have hse : (HashMap.cellAt t
              (wrap t.m_capacity (HashMap.Table.hash hashFn t key + e))).state
              = .empty := hemp
          show decide ((HashMap.cellAt t _).state = CellState.full) = false
          rw [hse]
          rfl)
        _ (by rfl)]
      rw [hsize]
      rfl
    · intro j hj
      by_cases hjj : j = wrap t.m_capacity (HashMap.Table.hash hashFn t key + e)
      · subst hjj
        rw [hcellS]
        intro hh
        exact CellState.noConfusion hh
      · rw [hcellO j hjj]
        exact hnw j hj
    · intro j1 hj1 j2 hj2 hf1 hf2 hk12
      by_cases h1 : j1 = wrap t.m_capacity (HashMap.Table.hash hashFn t key + e) <;>
        by_cases h2 : j2 = wrap t.m_capacity (HashMap.Table.hash hashFn t key + e)
      · rw [h1, h2]
      · exfalso
        rw [hcellO j2 h2] at hf2 hk12
        rw [h1, hcellS] at hk12
        exact hcore j2 hj2 h2 hf2 hk12.symm
      · exfalso
        rw [hcellO j1 h1] at hf1 hk12
        rw [h2, hcellS] at hk12
        exact hcore j1 hj1 h1 hf1 hk12
      · rw [hcellO j1 h1] at hf1 hk12
        rw [hcellO j2 h2] at hf2 hk12
        exact huniq j1 hj1 j2 hj2 hf1 hf2 hk12
    · intro j hj hfull d hd
      by_cases hjj : j = wrap t.m_capacity (HashMap.Table.hash hashFn t key + e)
      · subst hjj
        rw [hcellS] at hd ⊢
        -- the probe distance of the new cell is exactly e
        have hdist : probeDist t.m_capacity (HashMap.Table.hash hashFn t key)
            (wrap t.m_capacity (HashMap.Table.hash hashFn t key + e)) = e :=
          probeDist_wrap kk _ _ e hpow hidxlt helt
        have hde : d < e := by
          have : HashMap.Table.hash hashFn
              ({ t with
                m_buffer := t.m_buffer.set
                  (wrap t.m_capacity (HashMap.Table.hash hashFn t key + e))
                  ⟨.full, key, value⟩,
                m_size := t.m_size + 1 }) key = HashMap.Table.hash hashFn t key := rfl
          rw [this] at hd
          show d < e
          rw [← hdist]
          exact hd
        intro hempty
        have hne : wrap t.m_capacity (HashMap.Table.hash hashFn t key + d) ≠
            wrap t.m_capacity (HashMap.Table.hash hashFn t key + e) := by
          intro hh
          have := wrap_probe_inj kk t.m_capacity _ d e hpow (by omega) helt hh
          omega
        have hempty' : (HashMap.cellAt t
            (wrap t.m_capacity (HashMap.Table.hash hashFn t key + d))).state
            = .empty := by
          have hC := hcellO _ hne
          have : HashMap.probeAt
              ({ t with
                m_buffer := t.m_buffer.set
                  (wrap t.m_capacity (HashMap.Table.hash hashFn t key + e))
                  ⟨.full, key, value⟩,
                m_size := t.m_size + 1 }) (HashMap.Table.hash hashFn t key) d =
              HashMap.cellAt t
                (wrap t.m_capacity (HashMap.Table.hash hashFn t key + d)) := hC
          rw [← this]
          exact hempty
        exact (hpre d (Nat.zero_le _) hde).1 hempty'
      · rw [hcellO j hjj] at hfull hd ⊢
        intro hempty
        have hempty2 : (HashMap.probeAt
            ({ t with
              m_buffer := t.m_buffer.set
                (wrap t.m_capacity (HashMap.Table.hash hashFn t key + e))
                ⟨.full, key, value⟩,
              m_size := t.m_size + 1 })
            (HashMap.Table.hash hashFn t (HashMap.cellAt t j).key) d).state
            = .empty := hempty
        have hd2 : d < probeDist t.m_capacity
            (HashMap.Table.hash hashFn t (HashMap.cellAt t j).key) j := hd
        -- any cell of the new table that is Empty was Empty in the old table
        by_cases hx : wrap t.m_capacity
            (HashMap.Table.hash hashFn t (HashMap.cellAt t j).key + d) =
            wrap t.m_capacity (HashMap.Table.hash hashFn t key + e)
        · have hS : HashMap.probeAt
              ({ t with
                m_buffer := t.m_buffer.set
                  (wrap t.m_capacity (HashMap.Table.hash hashFn t key + e))
                  ⟨.full, key, value⟩,
                m_size := t.m_size + 1 })
              (HashMap.Table.hash hashFn t (HashMap.cellAt t j).key) d =
              ⟨.full, key, value⟩ := by
            show HashMap.cellAt _ (wrap t.m_capacity _) = _
            rw [show wrap ({ t with
                m_buffer := t.m_buffer.set
                  (wrap t.m_capacity (HashMap.Table.hash hashFn t key + e))
                  ⟨.full, key, value⟩,
                m_size := t.m_size + 1 } : HashMap.Table κ ν).m_capacity
                (HashMap.Table.hash hashFn t (HashMap.cellAt t j).key + d) =
              wrap t.m_capacity
                (HashMap.Table.hash hashFn t (HashMap.cellAt t j).key + d) from rfl,
              hx]
            exact hcellS
          rw [hS] at hempty2
          exact CellState.noConfusion hempty2
        · have hO : HashMap.probeAt
              ({ t with
                m_buffer := t.m_buffer.set
                  (wrap t.m_capacity (HashMap.Table.hash hashFn t key + e))
                  ⟨.full, key, value⟩,
                m_size := t.m_size + 1 })
              (HashMap.Table.hash hashFn t (HashMap.cellAt t j).key) d =
              HashMap.cellAt t (wrap t.m_capacity
                (HashMap.Table.hash hashFn t (HashMap.cellAt t j).key + d)) :=
            hcellO _ hx
          rw [hO] at hempty2
          exact (hchain j hj hfull d hd2) hempty2

theorem TableWf_remove (hashFn : κ → Nat) (t : HashMap.Table κ ν) (key : κ)
    (hwf : HashMap.TableWf hashFn t) :
    HashMap.TableWf hashFn (HashMap.Table.remove hashFn t key).2 := by
  obtain ⟨⟨kk, hpow⟩, hlen, hsize, hnw, huniq, hchain⟩ := hwf
  cases hb : (HashMap.Table.remove hashFn t key).1
  · have heq : HashMap.Table.remove hashFn t key =
        (false, (HashMap.Table.remove hashFn t key).2) := by
      rw [← hb]
    have ht' := removeLoop_false_eq t key
      (HashMap.Table.hash hashFn t key) (List.range t.m_capacity) _ heq
    rw [ht']
    exact ⟨⟨kk, hpow⟩, hlen, hsize, hnw, huniq, hchain⟩
  · have heq : HashMap.Table.remove hashFn t key =
        (true, (HashMap.Table.remove hashFn t key).2) := by
      rw [← hb]
    have hloop : HashMap.Table.removeLoop t key
        (HashMap.Table.hash hashFn t key) (List.range' 0 t.m_capacity) =
        (true, (HashMap.Table.remove hashFn t key).2) := by
      rw [← List.range_eq_range']
      exact heq
    obtain ⟨e, -, helt, hfull, hkey, ht'⟩ :=
      removeLoop_true_inv t key _ t.m_capacity 0 _ hloop
    rw [ht']
    have hjs : wrap t.m_capacity (HashMap.Table.hash hashFn t key + e)
        < t.m_capacity := wrap_lt_cap kk _ _ hpow
    have hjslen : wrap t.m_capacity (HashMap.Table.hash hashFn t key + e)
        < t.m_buffer.length := by rw [hlen]; exact hjs
    have hcellS : HashMap.cellAt
        ({ t with
          m_buffer := t.m_buffer.set
            (wrap t.m_capacity (HashMap.Table.hash hashFn t key + e))
            { HashMap.probeAt t (HashMap.Table.hash hashFn t key) e with
              state := .deleted },
          m_size := t.m_size - 1 })
        (wrap t.m_capacity (HashMap.Table.hash hashFn t key + e)) =
        { HashMap.probeAt t (HashMap.Table.hash hashFn t key) e with
          state := .deleted } := by
      show (t.m_buffer.set _ _).getD _ HashMap.dcell = _
      exact getD_set_self _ hjslen _ _
    have hcellO : ∀ x, x ≠ wrap t.m_capacity (HashMap.Table.hash hashFn t key + e) →
        HashMap.cellAt
          ({ t with
            m_buffer := t.m_buffer.set
              (wrap t.m_capacity (HashMap.Table.hash hashFn t key + e))
              { HashMap.probeAt t (HashMap.Table.hash hashFn t key) e with
                state := .deleted },
            m_size := t.m_size - 1 }) x = HashMap.cellAt t x := by
      intro x hx
      show (t.m_buffer.set _ _).getD _ HashMap.dcell = t.m_buffer.getD _ HashMap.dcell
      exact getD_set_ne _ (fun hh => hx hh.symm) _ _
    refine ⟨⟨kk, hpow⟩, ?_, ?_, ?_, ?_, ?_⟩
    · show (t.m_buffer.set _ _).length = t.m_capacity
      rw [List.length_set]
      exact hlen
    · show t.m_size - 1 = List.countP (fun c => decide (c.state = CellState.full))
        (t.m_buffer.set (wrap t.m_capacity (HashMap.Table.hash hashFn t key + e))
          { HashMap.probeAt t (HashMap.Table.hash hashFn t key) e with
            state := .deleted })
      have hdecr := countP_set_decr
        (fun c => decide (c.state = CellState.full)) t.m_buffer HashMap.dcell
        _ hjslen
        (by
          show decide ((HashMap.cellAt t _).state = CellState.full) = true
          have hse : (HashMap.cellAt t
              (wrap t.m_capacity (HashMap.Table.hash hashFn t key + e))).state
              = .full := hfull
          rw [hse]
          rfl)
        { HashMap.probeAt t (HashMap.Table.hash hashFn t key) e with
          state := .deleted } (by rfl)
      have hsize' : t.m_size = HashMap.countFull t := hsize
      unfold HashMap.countFull at hsize'
      omega
    · intro j hj
      by_cases hjj : j = wrap t.m_capacity (HashMap.Table.hash hashFn t key + e)
      · subst hjj
        rw [hcellS]
        intro hh
        exact CellState.noConfusion hh
      · rw [hcellO j hjj]
        exact hnw j hj
    · intro j1 hj1 j2 hj2 hf1 hf2 hk12
      by_cases h1 : j1 = wrap t.m_capacity (HashMap.Table.hash hashFn t key + e)
      · exfalso
        rw [h1, hcellS] at hf1
        exact CellState.noConfusion hf1
      · by_cases h2 : j2 = wrap t.m_capacity (HashMap.Table.hash hashFn t key + e)
        · exfalso
          rw [h2, hcellS] at hf2
          exact CellState.noConfusion hf2
        · rw [hcellO j1 h1] at hf1 hk12
          rw [hcellO j2 h2] at hf2 hk12
          exact huniq j1 hj1 j2 hj2 hf1 hf2 hk12
    · intro j hj hfullj d hd
      by_cases hjj : j = wrap t.m_capacity (HashMap.Table.hash hashFn t key + e)
      · exfalso
        rw [hjj, hcellS] at hfullj
        exact CellState.noConfusion hfullj
      · rw [hcellO j hjj] at hfullj hd ⊢
        intro hempty
        have hempty2 : (HashMap.probeAt
            ({ t with
              m_buffer := t.m_buffer.set
                (wrap t.m_capacity (HashMap.Table.hash hashFn t key + e))
                { HashMap.probeAt t (HashMap.Table.hash hashFn t key) e with
                  state := .deleted },
              m_size := t.m_size - 1 })
            (HashMap.Table.hash hashFn t (HashMap.cellAt t j).key) d).state
            = .empty := hempty
        have hd2 : d < probeDist t.m_capacity
            (HashMap.Table.hash hashFn t (HashMap.cellAt t j).key) j := hd
        by_cases hx : wrap t.m_capacity
            (HashMap.Table.hash hashFn t (HashMap.cellAt t j).key + d) =
            wrap t.m_capacity (HashMap.Table.hash hashFn t key + e)
        · have hS : HashMap.probeAt
              ({ t with
                m_buffer := t.m_buffer.set
                  (wrap t.m_capacity (HashMap.Table.hash hashFn t key + e))
                  { HashMap.probeAt t (HashMap.Table.hash hashFn t key) e with
                    state := .deleted },
                m_size := t.m_size - 1 })
              (HashMap.Table.hash hashFn t (HashMap.cellAt t j).key) d =
              { HashMap.probeAt t (HashMap.Table.hash hashFn t key) e with
                state := .deleted } := by
            show HashMap.cellAt _ (wrap t.m_capacity _) = _
            rw [show wrap ({ t with
                m_buffer := t.m_buffer.set
                  (wrap t.m_capacity (HashMap.Table.hash hashFn t key + e))
                  { HashMap.probeAt t (HashMap.Table.hash hashFn t key) e with
                    state := .deleted },
                m_size := t.m_size - 1 } : HashMap.Table κ ν).m_capacity
                (HashMap.Table.hash hashFn t (HashMap.cellAt t j).key + d) =
              wrap t.m_capacity
                (HashMap.Table.hash hashFn t (HashMap.cellAt t j).key + d) from rfl,
              hx]
            exact hcellS
          rw [hS] at hempty2
          exact CellState.noConfusion hempty2
        · have hO : HashMap.probeAt
              ({ t with
                m_buffer := t.m_buffer.set
                  (wrap t.m_capacity (HashMap.Table.hash hashFn t key + e))
                  { HashMap.probeAt t (HashMap.Table.hash hashFn t key) e with
                    state := .deleted },
                m_size := t.m_size - 1 })
              (HashMap.Table.hash hashFn t (HashMap.cellAt t j).key) d =
              HashMap.cellAt t (wrap t.m_capacity
                (HashMap.Table.hash hashFn t (HashMap.cellAt t j).key + d)) :=
            hcellO _ hx
          rw [hO] at hempty2
          exact (hchain j hj hfullj d hd2) hempty2

theorem foldl_insert_wf (hashFn : κ → Nat) (l : List (HashMap.Cell κ ν)) :
    ∀ nt : HashMap.Table κ ν, HashMap.TableWf hashFn nt →
    HashMap.TableWf hashFn (l.foldl
      (fun nt cell => if cell.state = .full
        then (HashMap.Table.insert hashFn nt cell.key cell.value).2 else nt) nt) ∧
    (l.foldl
      (fun nt cell => if cell.state = .full
        then (HashMap.Table.insert hashFn nt cell.key cell.value).2 else nt)
      nt).m_capacity = nt.m_capacity := by
  induction l with
  | nil => intro nt hwf; exact ⟨hwf, rfl⟩
  | cons c l ih =>
    intro nt hwf
    simp only [List.foldl_cons]
    by_cases hc : c.state = .full
    · rw [if_pos hc]
      have := ih _ (TableWf_insert hashFn nt c.key c.value hwf)
      exact ⟨this.1, this.2.trans (insert_capacity hashFn nt c.key c.value)⟩
    · rw [if_neg hc]
      exact ih nt hwf

theorem TableWf_resize (hashFn : κ → Nat) (m : HashMap κ ν)
    (hwf : HashMap.TableWf hashFn m.m_table) :
    HashMap.TableWf hashFn (HashMap.resize hashFn m).m_table := by
  obtain ⟨⟨kk, hpow⟩, -, -, -, -, -⟩ := hwf
  show HashMap.TableWf hashFn (m.m_table.m_buffer.foldl _ _)
  exact (foldl_insert_wf hashFn m.m_table.m_buffer _
    (TableWf_init hashFn (kk + 1) _ (by rw [hpow, pow_succ]))).1

theorem TableWf_insertFuel (hashFn : κ → Nat) :
    ∀ (fuel : Nat) (m : HashMap κ ν) (key : κ) (value : ν) (b : Bool)
      (m' : HashMap κ ν),
    HashMap.TableWf hashFn m.m_table →
    HashMap.insertFuel hashFn fuel m key value = some (b, m') →
    HashMap.TableWf hashFn m'.m_table := by
  intro fuel
  induction fuel with
  | zero =>
    intro m key value b m' _ h
    exact Option.noConfusion h
  | succ n ih =>
    intro m key value b m' hwf h
    simp only [HashMap.insertFuel] at h
    by_cases hb : (HashMap.Table.insert hashFn m.m_table key value).1 = true
    · rw [if_pos hb] at h
      injection h with h'
      have hm' : m' = ⟨(HashMap.Table.insert hashFn m.m_table key value).2⟩ :=
        ((Prod.mk.injEq _ _ _ _ ▸ h').2).symm
      rw [hm']
      exact TableWf_insert hashFn m.m_table key value hwf
    · rw [if_neg hb] at h
      by_cases hc : m.m_table.m_capacity / 2 < m.m_table.m_size
      · rw [if_pos hc] at h
        exact ih _ key value b m' (TableWf_resize hashFn m hwf) h
      · rw [if_neg hc] at h
        exact ih _ key value b m' hwf h

theorem TableWf_reachable (hashFn : κ → Nat) (kk cap : Nat)
    (hcap : cap = 2 ^ kk) (m : HashMap κ ν)
    (hr : HashMap.Reachable hashFn cap m) :
    HashMap.TableWf hashFn m.m_table := by
  induction hr with
  | refl => exact TableWf_init hashFn kk cap hcap
  | tail hsteps hstep ih =>
    cases hstep with
    | insert fuel _ _ key value b heq =>
      exact TableWf_insertFuel hashFn fuel _ key value b _ ih heq
    | remove _ key => exact TableWf_remove hashFn _ key ih

end HashMapProofs

end Mpmc

/-- Claim C9 (amended: only the MPMC-queue part needs capacity at least 2):
for power-of-two capacity, in every state of the SPSC queue or the hash map
reachable by any sequence of public operations, and every reachable state of
the MPMC queue when the capacity is at least 2, `size()` never exceeds
`capacity()`. -/
theorem C9_size_le_capacity (ck cap : Nat) (hcap : cap = 2 ^ ck) :
    (∀ (α : Type) [Inhabited α], ∀ q : Spsc.Queue α,
      Spsc.Reachable α cap q →
      Spsc.Queue.size cap q ≤ Spsc.Queue.capacity cap q) ∧
    (1 ≤ ck → ∀ (α : Type) [Inhabited α], ∀ q : Mpmc.Queue α,
      Mpmc.Reachable α cap q →
      Mpmc.Queue.size q ≤ Mpmc.Queue.capacity cap q) ∧
    (∀ (κ ν : Type) [DecidableEq κ] [Inhabited κ] [Inhabited ν],
      ∀ hashFn : κ → Nat, ∀ m : Mpmc.HashMap κ ν,
      Mpmc.HashMap.Reachable hashFn cap m →
      Mpmc.HashMap.size m ≤ Mpmc.HashMap.capacity m) := by
  refine ⟨?_, ?_, ?_⟩
  · intro α _ q _
    exact Nat.le_of_lt (Mpmc.wrap_lt_cap ck cap _ hcap)
  · intro hk α _ q hr
    obtain ⟨-, hle, hub, -⟩ := Mpmc.Inv_reachable ck cap hcap hk q hr
    show q.m_enqueuePos - q.m_dequeuePos ≤ cap
    omega
  · intro κ ν _ _ _ hashFn m hr
    obtain ⟨-, hlen, hsize, -, -, -⟩ :=
      Mpmc.TableWf_reachable hashFn ck cap hcap m hr
    show m.m_table.m_size ≤ m.m_table.m_capacity
    rw [hsize]
    calc Mpmc.HashMap.countFull m.m_table
        ≤ m.m_table.m_buffer.length := List.countP_le_length _
      _ = m.m_table.m_capacity := hlen

/-- Claim C9 counterexample: at capacity 1, which the MPMC queue's
`static_assert` admits, a state whose `size()` exceeds `capacity()` is
reachable (two successful enqueues on a fresh queue). -/
theorem C9_counterexample :
    ∃ q : Mpmc.Queue Nat, Mpmc.Reachable Nat 1 q ∧
      Mpmc.Queue.capacity 1 q < Mpmc.Queue.size q :=
  ⟨⟨[⟨2, 7⟩], 2, 0⟩, Mpmc.reach_cap1_two_enqueues, by decide⟩

/-- Witness for C9: the SPSC queue and the hash map at capacity 1 (where no
extra hypothesis applies) and the MPMC queue at capacity 2, each on the
fresh state. -/
theorem C9_size_le_capacity_witness :
    (Spsc.Queue.size 1 (Spsc.Queue.init Nat 1)
      ≤ Spsc.Queue.capacity 1 (Spsc.Queue.init Nat 1)) ∧
    (Mpmc.Queue.size (Mpmc.Queue.init Nat 2)
      ≤ Mpmc.Queue.capacity 2 (Mpmc.Queue.init Nat 2)) ∧
    (Mpmc.HashMap.size (Mpmc.HashMap.init Nat Nat 1)
      ≤ Mpmc.HashMap.capacity (Mpmc.HashMap.init Nat Nat 1)) :=
  ⟨(C9_size_le_capacity 0 1 rfl).1 Nat _ Relation.ReflTransGen.refl,
   (C9_size_le_capacity 1 2 rfl).2.1 (by decide) Nat _
     Relation.ReflTransGen.refl,
   (C9_size_le_capacity 0 1 rfl).2.2 Nat Nat (fun k => k) _
     Relation.ReflTransGen.refl⟩

end Blockbuster
